import Mathlib

/-!
Verification of the focst subtitle-translation pipeline core.

This file shallowly embeds the Go source of the focst repository in Lean 4:
pure functions become Lean functions, machine integers become `Int`/`Nat`
with two's-complement wrap-around (`wrap64`) wherever an `int64`
expression can overflow — in particular `time.Duration` (an `int64` count
of nanoseconds) and `strconv.Atoi`'s range error — and fallible code
returns `Option`/`Except`.  The float64 arithmetic of the timing corrector
is modelled bit-faithfully: a binary64 value is an exact dyadic number
(structure `F64`), and each Go operation rounds its exact result to 53
significand bits, nearest-even, which is the IEEE-754 rule on the normal
range the computation stays in; the float-to-`int64` conversion truncates
with the amd64 out-of-range result.  Two external libraries are
abstracted as parameters: `uniseg.GraphemeClusterCount` becomes an arbitrary
function `gcc : String → Nat`, and `unicode.IsLetter/IsNumber` becomes an
arbitrary predicate `isLN : Char → Bool`; every theorem quantifies over them,
so the results hold whatever those libraries compute.
-/

namespace Focst

/-! ### Basic Go string helpers (models of `strings`/`strconv` operations) -/

/-- Model of Go `strings.Split(s, sep)` for a one-character separator,
operating on the rune list of the string. -/
def splitOnChar (sep : Char) : List Char → List (List Char)
  | [] => [[]]
  | c :: rest =>
    if c = sep then [] :: splitOnChar sep rest
    else
      match splitOnChar sep rest with
      | [] => [[c]]
      | h :: t => (c :: h) :: t

/-- Decimal digit characters, used when rendering numbers. -/
def digitChar (d : Nat) : Char :=
  match d with
  | 0 => '0' | 1 => '1' | 2 => '2' | 3 => '3' | 4 => '4'
  | 5 => '5' | 6 => '6' | 7 => '7' | 8 => '8' | _ => '9'

/-- Numeric value of a decimal digit character. -/
def digitVal (c : Char) : Nat := c.toNat - 48

/-- Decimal digits of a positive number, most significant first, by
fuelled structural recursion (64 digits covers far beyond the `int64`
range this development renders). -/
def digitsAux : Nat → Nat → List Char
  | 0, _ => []
  | fuel + 1, n => if n = 0 then [] else digitsAux fuel (n / 10) ++ [digitChar (n % 10)]

/-- Decimal rendering of a natural number (most significant digit first). -/
def digitsOf (n : Nat) : List Char :=
  if n = 0 then ['0'] else digitsAux 64 n

/-- Decimal rendering left-padded with zeros to width `w`,
modelling Go's `%02d` / `%03d` format verbs. -/
def padDigits (w : Nat) (n : Nat) : List Char :=
  List.replicate (w - (digitsOf n).length) '0' ++ digitsOf n

/-- Model of Go `strconv.Atoi`: an optional sign followed by a nonempty
run of decimal digits; a value outside the `int64` range is an `ErrRange`
error, so it parses to `none`. -/
def goAtoi (l : List Char) : Option Int :=
  let natPart : List Char → Option Nat := fun ds =>
    if ds ≠ [] ∧ ds.all Char.isDigit then
      some (ds.foldl (fun a c => 10 * a + digitVal c) 0)
    else none
  match l with
  | '+' :: rest => (natPart rest).bind fun n =>
      if n ≤ 9223372036854775807 then some (Int.ofNat n) else none
  | '-' :: rest => (natPart rest).bind fun n =>
      if n ≤ 9223372036854775808 then some (-(n : Int)) else none
  | _ => (natPart l).bind fun n =>
      if n ≤ 9223372036854775807 then some (Int.ofNat n) else none

/-- The Unicode White_Space code points, the set trimmed by Go
`strings.TrimSpace` (`unicode.IsSpace`). -/
def isGoSpace (c : Char) : Bool :=
  let n := c.toNat
  n = 0x20 ∨ (0x9 ≤ n ∧ n ≤ 0xD) ∨ n = 0x85 ∨ n = 0xA0 ∨ n = 0x1680 ∨
  (0x2000 ≤ n ∧ n ≤ 0x200A) ∨ n = 0x2028 ∨ n = 0x2029 ∨ n = 0x202F ∨
  n = 0x205F ∨ n = 0x3000

/-- Model of Go `strings.TrimSpace`. -/
def goTrimSpace (s : String) : String :=
  ⟨((s.data.dropWhile isGoSpace).reverse.dropWhile isGoSpace).reverse⟩

/-- Model of Go `strings.TrimRight(s, cutset)` for a one-character cutset. -/
def goTrimRightChar (cut : Char) (s : String) : String :=
  ⟨(s.data.reverse.dropWhile (· = cut)).reverse⟩

/-- Model of Go `strings.HasPrefix`. -/
def goStartsWith (s pre : String) : Bool := pre.data.isPrefixOf s.data

/-- ASCII lower-casing of one character, the effect of `strings.EqualFold`
folding on the ASCII range (the only range the `.vtt` comparison can
meet). -/
def asciiToLower (c : Char) : Char :=
  if 'A' ≤ c ∧ c ≤ 'Z' then Char.ofNat (c.toNat + 32) else c

/-- ASCII lower-casing of a string. -/
def asciiLower (s : String) : String := ⟨s.data.map asciiToLower⟩

/-! ### Segment model (`internal/srt`, file `parser.go`) -/

/-- In-memory subtitle cue, as in the Go `srt.Segment` struct:
timestamps are kept in their string form `HH:MM:SS,mmm`. -/
structure Segment where
  ID : Int
  StartTime : String
  EndTime : String
  Lines : List String
deriving Repr, DecidableEq

/-- Go two's-complement `int64` wrap-around: the value an `int64`
expression holds after overflow. -/
def wrap64 (z : Int) : Int :=
  (z + 9223372036854775808) % 18446744073709551616 - 9223372036854775808

/-- Model of `srt.ParseTimestamp`: parse `HH:MM:SS,mmm` (hours unbounded up
to `strconv.Atoi`'s `int64` range) into a nanosecond count.  The Go result
type is `time.Duration` (an `int64`), and `time.Duration(hours)*time.Hour +
…` silently wraps around for hours ≥ 2562048, which `wrap64` reproduces. -/
def ParseTimestamp (s : String) : Option Int :=
  match splitOnChar ',' s.data with
  | [p0, p1] =>
    if p1.length ≠ 3 then none
    else
      match goAtoi p1 with
      | none => none
      | some ms =>
        if ms < 0 ∨ ms > 999 then none
        else
          match splitOnChar ':' p0 with
          | [hS, mS, sS] =>
            match goAtoi hS with
            | none => none
            | some hours =>
              if hours < 0 then none
              else
                match goAtoi mS with
                | none => none
                | some minutes =>
                  if minutes < 0 ∨ minutes > 59 then none
                  else
                    match goAtoi sS with
                    | none => none
                    | some seconds =>
                      if seconds < 0 ∨ seconds > 59 then none
                      else
                        some (wrap64 (hours * 3600000000000 +
                              minutes * 60000000000 +
                              seconds * 1000000000 + ms * 1000000))
          | _ => none
  | _ => none

/-- Model of `srt.FormatTimestamp`: render a nanosecond count (clamped at 0)
as `HH:MM:SS,mmm`, dropping sub-millisecond precision. -/
def FormatTimestamp (d : Int) : String :=
  let t := (if d < 0 then 0 else d).toNat
  let h := t / 3600000000000
  let r1 := t % 3600000000000
  let m := r1 / 60000000000
  let r2 := r1 % 60000000000
  let s := r2 / 1000000000
  let ms := r2 % 1000000000 / 1000000
  ⟨padDigits 2 h ++ ':' :: (padDigits 2 m ++ ':' :: (padDigits 2 s ++ ',' :: padDigits 3 ms))⟩

/-! ### Chunker (`internal/chunker`) -/

/-- Context segments surrounding a chunk, as in the Go `BeforeAfterContext`. -/
structure BeforeAfterContext where
  Before : List Segment
  After : List Segment
deriving Repr, DecidableEq

/-- A chunk of target segments plus context, as in the Go `chunker.Chunk`. -/
structure Chunk where
  Index : Nat
  Target : List Segment
  Context : BeforeAfterContext
deriving Repr, DecidableEq

/-- Loop body of `chunker.SplitIntoChunks`: `i` is the start offset of the
next chunk and `k` its index.  Go's slice `segments[a:b]` is
`(segments.drop a).take (b - a)`; the clamp `beforeStart = max (i - ctx) 0`
is natural subtraction. -/
def splitIntoChunksGo (segments : List Segment) (chunkSize contextSize : Nat)
    (i k : Nat) : List Chunk :=
  if h : i < segments.length ∧ 0 < chunkSize then
    let endIdx := min (i + chunkSize) segments.length
    { Index := k
      Target := (segments.drop i).take (endIdx - i)
      Context :=
        { Before := (segments.drop (i - contextSize)).take (i - (i - contextSize))
          After := (segments.drop endIdx).take
            (min (endIdx + contextSize) segments.length - endIdx) } } ::
      splitIntoChunksGo segments chunkSize contextSize endIdx (k + 1)
  else []
termination_by segments.length - i
decreasing_by
  simp only [min_def]
  split <;> omega

/-- Model of `chunker.SplitIntoChunks`. -/
def SplitIntoChunks (segments : List Segment) (chunkSize contextSize : Nat) :
    List Chunk :=
  splitIntoChunksGo segments chunkSize contextSize 0 0

/-- The chunk that `SplitIntoChunks` produces for target offset `a` and
chunk index `k` (specification-side normal form used by the theorems). -/
def chunkAt (segments : List Segment) (chunkSize contextSize a k : Nat) : Chunk :=
  { Index := k
    Target := (segments.drop a).take chunkSize
    Context :=
      { Before := (segments.drop (a - contextSize)).take (min a contextSize)
        After := (segments.drop (a + chunkSize)).take contextSize } }

/-- Number of chunks: `⌈N / chunkSize⌉` computed as in the Go sources. -/
def numChunks (n chunkSize : Nat) : Nat := (n + chunkSize - 1) / chunkSize

/-! ### Error taxonomy (`internal/apperrors`) -/

/-- Error kinds of the Go `apperrors.Kind` sum type. -/
inductive Kind where
  | transient
  | rateLimit
  | auth
  | badRequest
  | validation
deriving Repr, DecidableEq

/-- Observable shape of a Go `error` value at the points the engine inspects
it: `appKind?` is what `errors.As` to `*apperrors.Error` yields, and the two
flags record `errors.Is(err, context.Canceled)` and
`errors.Is(err, context.DeadlineExceeded)`. -/
structure GoError where
  appKind? : Option Kind
  ctxCanceled : Bool
  ctxDeadline : Bool
deriving Repr, DecidableEq

/-- Model of `apperrors.IsRetryable`. -/
def IsRetryable (e : GoError) : Bool :=
  match e.appKind? with
  | some k => k = .transient ∨ k = .rateLimit ∨ k = .validation
  | none => false

/-- Model of `apperrors.IsRateLimit`. -/
def IsRateLimit (e : GoError) : Bool :=
  match e.appKind? with
  | some k => k = .rateLimit
  | none => false

/-- The error produced by `apperrors.Validation(err)` for a freshly created
cause (the wrapped cause is never a context error on the paths modelled
here). -/
def validationErr : GoError := ⟨some .validation, false, false⟩

/-! ### Model-adapter data types (`internal/gemini`) -/

/-- Token usage of one model response (`gemini.UsageMetadata`). -/
structure UsageMetadata where
  PromptTokenCount : Int
  CandidatesTokenCount : Int
  TotalTokenCount : Int
  WebSearchCount : Int
deriving Repr, DecidableEq

/-- One translated segment in a model response (`gemini.TranslatedSegment`). -/
structure TranslatedSegment where
  ID : Int
  Line1 : String
  Line2 : String
deriving Repr, DecidableEq

/-- A model response (`gemini.ResponseData`). -/
structure ResponseData where
  Translations : List TranslatedSegment
  Usage : UsageMetadata
deriving Repr, DecidableEq

/-! ### Translator (`internal/translator`, unnamed translator source file) -/

/-- Model of `strings.ReplaceAll(line, "\\n", "\n")`: each literal
backslash-n pair becomes a newline character. -/
def replaceLiteralNewline : List Char → List Char
  | '\\' :: 'n' :: rest => '\n' :: replaceLiteralNewline rest
  | c :: rest => c :: replaceLiteralNewline rest
  | [] => []

/-- Model of the translator's `normalizeLines`: replace literal `\n` with a
newline, split on newlines, trim, drop empties. -/
def normalizeLines (lines : List String) : List String :=
  lines.foldr
    (fun line acc =>
      if line = "" then acc
      else
        (((splitOnChar '\n' (replaceLiteralNewline line.data)).map
            (fun l => goTrimSpace ⟨l⟩)).filter (· ≠ "")) ++ acc)
    []

/-- Result of inserting one translation into the `transMap` built by
`mergeResults`: an error for a duplicate or hallucinated ID, otherwise the
extended association list. -/
def insertTranslation (expectedIDs : List Int)
    (acc : List (Int × TranslatedSegment)) (tr : TranslatedSegment) :
    Except String (List (Int × TranslatedSegment)) :=
  if (acc.map Prod.fst).contains tr.ID then
    .error "duplicate translation ID detected in model output"
  else if ¬ expectedIDs.contains tr.ID then
    .error "unexpected translation ID (hallucination) from model"
  else
    .ok (acc ++ [(tr.ID, tr)])

/-- The `transMap`-building loop of `mergeResults`: insert each translation
in order, stopping at the first duplicate or hallucinated ID. -/
def buildTransMap (expectedIDs : List Int)
    (acc : List (Int × TranslatedSegment)) :
    List TranslatedSegment → Except String (List (Int × TranslatedSegment))
  | [] => .ok acc
  | tr :: rest =>
    match insertTranslation expectedIDs acc tr with
    | .error e => .error e
    | .ok acc2 => buildTransMap expectedIDs acc2 rest

/-- The result-building loop of `mergeResults`: for each original target
segment look its translation up by ID, reject an empty translation of a
non-empty segment, and splice the normalised lines under the original
timing. -/
def buildMerged (transMap : List (Int × TranslatedSegment)) :
    List Segment → Except String (List Segment)
  | [] => .ok []
  | orig :: rest =>
    match transMap.find? (fun p => p.fst = orig.ID) with
    | none => .error "missing translation for segment ID"
    | some (_, tr) =>
      if tr.Line1 = "" ∧ tr.Line2 = "" ∧ orig.Lines ≠ [] then
        .error "hallucination detected: empty translation for segment ID"
      else
        match buildMerged transMap rest with
        | .error e => .error e
        | .ok others =>
          .ok ({ ID := orig.ID, StartTime := orig.StartTime,
                 EndTime := orig.EndTime,
                 Lines := normalizeLines [tr.Line1, tr.Line2] } :: others)

/-- Model of the translator's `mergeResults`: validate the response against
the chunk's target window and splice the translations in by ID. -/
def mergeResults (original : List Segment) (resp : ResponseData) :
    Except String (List Segment) :=
  match buildTransMap (original.map Segment.ID) [] resp.Translations with
  | .error e => .error e
  | .ok transMap =>
    if transMap.length ≠ original.length then
      .error "translation count mismatch"
    else buildMerged transMap original

/-- Specification-side rejection condition for a merge, following the
claim's wording: a duplicated ID, a hallucinated ID (one not in the target
window), a number of distinct translations different from the number of
target segments, or a translation that is empty on both lines although the
original segment had lines. -/
def mergeRejects (original : List Segment) (resp : ResponseData) : Prop :=
  ¬ (resp.Translations.map TranslatedSegment.ID).Nodup
  ∨ (∃ tr ∈ resp.Translations, tr.ID ∉ original.map Segment.ID)
  ∨ (resp.Translations.map TranslatedSegment.ID).dedup.length ≠ original.length
  ∨ (∃ orig ∈ original, ∃ tr ∈ resp.Translations, tr.ID = orig.ID ∧
      tr.Line1 = "" ∧ tr.Line2 = "" ∧ orig.Lines ≠ [])

instance (original : List Segment) (resp : ResponseData) :
    Decidable (mergeRejects original resp) := by
  unfold mergeRejects
  infer_instance

/-- Model of the translator's `validateResponse` (CPL check): each line's
grapheme-cluster count must not exceed `1.5 × targetCPL`; the float
comparison `float64(c) > cpl * 1.5` is exact at these magnitudes and is
rendered as `2 * c > 3 * cpl`. -/
def validateResponse (gcc : String → Nat) (cpl : Int) (resp : ResponseData) :
    Except String Unit :=
  resp.Translations.foldlM
    (fun _ tr =>
      if 2 * (gcc tr.Line1 : Int) > 3 * cpl then .error "line 1 too long"
      else if tr.Line2 ≠ "" ∧ 2 * (gcc tr.Line2 : Int) > 3 * cpl then
        .error "line 2 too long"
      else .ok ())
    ()

/-- Model of the translator's `retryDecision`: decide whether to retry and
with which delay.  `jitterNs` stands for the value drawn by
`rand.Int63n(int64(jitterMax))`; the boolean component never depends on it.
The condition `errors.Is(err, context.Canceled) ∨ errors.Is(err,
context.DeadlineExceeded)` is the `GoError` context flags. -/
def retryDecision (err : Option GoError) (attempt maxAttempts : Nat)
    (jitterNs : Int) : Bool × Int :=
  match err with
  | none => (false, 0)
  | some e =>
    if attempt ≥ maxAttempts then (false, 0)
    else if e.ctxCanceled ∨ e.ctxDeadline then (false, 0)
    else if ¬ IsRetryable e then (false, 0)
    else
      let base : Int := 1000000000
      let maxBackoff : Int := 20000000000
      let backoff := base * 2 ^ (attempt - 1)
      let backoff := if IsRateLimit e then backoff * 2 else backoff
      let backoff := if backoff > maxBackoff then maxBackoff else backoff
      (true, backoff + jitterNs)

/-- Static configuration of a `translator.Translator` (the fields that the
modelled code paths read; `NewTranslator` guarantees `chunkSize > 0`). -/
structure TranslatorCfg where
  chunkSize : Nat
  contextSize : Nat
  validateCPL : Bool
  tgtCPL : Int
deriving Repr, DecidableEq

/-- Outcome of the validation-and-merge sequence the engine runs after a
successful adapter call: the optional CPL validation, then `mergeResults`,
each failure wrapped by `apperrors.Validation`. -/
def attemptOutcome (cfg : TranslatorCfg) (gcc : String → Nat)
    (target : List Segment) (resp : ResponseData) :
    Except GoError (List Segment) :=
  if cfg.validateCPL ∧ (validateResponse gcc cfg.tgtCPL resp).isOk = false then
    .error validationErr
  else
    match mergeResults target resp with
    | .error _ => .error validationErr
    | .ok translated => .ok translated

/-- The per-chunk attempt loop of `translateEngine` (attempts
`attempt, attempt+1, …` with `fuel` iterations left): call the adapter
(`oracle attempt`), on success validate and merge, on failure consult
`retryDecision`.  Returns the merged segments of the first successful
attempt, or `none` when the chunk ends up failed.  The backoff sleep has no
observable effect in this model, so the jitter argument is passed as 0. -/
def attemptLoop (cfg : TranslatorCfg) (gcc : String → Nat)
    (target : List Segment) (oracle : Nat → Except GoError ResponseData) :
    Nat → Nat → Option (List Segment)
  | _, 0 => none
  | attempt, fuel + 1 =>
    let res : Except GoError (List Segment) :=
      match oracle attempt with
      | .error e => .error e
      | .ok resp => attemptOutcome cfg gcc target resp
    match res with
    | .ok translated => some translated
    | .error e =>
      if (retryDecision (some e) attempt 3 0).1 then
        attemptLoop cfg gcc target oracle (attempt + 1) fuel
      else none

/-- One chunk's final processing result: the Go loop `for attempt := 1;
attempt <= maxAttempts; attempt++` with `maxAttempts = 3`. -/
def processChunk (cfg : TranslatorCfg) (gcc : String → Nat)
    (target : List Segment) (oracle : Nat → Except GoError ResponseData) :
    Option (List Segment) :=
  attemptLoop cfg gcc target oracle 1 3

/-- Whether chunk index `i` is enqueued: `translateEngine` dispatches every
chunk when `chunkIndices` is nil, and otherwise only in-range requested
indices (`idx >= 0 && idx < len(chunks)`). -/
def toTranslate (chunkIndices : Option (List Int)) (total : Nat) (i : Nat) :
    Bool :=
  match chunkIndices with
  | none => decide (i < total)
  | some l => decide (i < total) && l.contains (i : Int)

/-- Model of the translator's `translateEngine`, observed after the worker
pool has drained: the chunk list, the per-chunk merged translations
(`translatedChunks`, `none` where no attempt succeeded or the chunk was not
dispatched), and the per-chunk failure marks.  Worker scheduling only
permutes the order in which the mutex-guarded cells are written, so the
drained state is this per-chunk computation; the run is modelled without an
external cancellation signal (cancellation surfacing through the adapter is
covered by `GoError`'s context flags, and a chunk aborted before processing
is marked failed by the engine's final loop exactly as a failed one). -/
def translateEngine (cfg : TranslatorCfg) (gcc : String → Nat)
    (segments : List Segment) (chunkIndices : Option (List Int))
    (oracle : Nat → Nat → Except GoError ResponseData) :
    List Chunk × List (Option (List Segment)) × List Bool :=
  let chunks := SplitIntoChunks segments cfg.chunkSize cfg.contextSize
  let translatedChunks := (List.range chunks.length).map fun i =>
    if toTranslate chunkIndices chunks.length i then
      processChunk cfg gcc ((chunks.get? i).elim [] Chunk.Target) (oracle i)
    else none
  let failedMarks := (List.range chunks.length).map fun i =>
    toTranslate chunkIndices chunks.length i &&
      (translatedChunks.get? i |>.elim true Option.isNone)
  (chunks, translatedChunks, failedMarks)

/-- Model of `Translator.TranslateSRT`: translate every chunk, substitute
the original target for chunks with no successful attempt, and report the
failed chunk indices. -/
def TranslateSRT (cfg : TranslatorCfg) (gcc : String → Nat)
    (segments : List Segment)
    (oracle : Nat → Nat → Except GoError ResponseData) :
    List Segment × List Nat :=
  let (chunks, translatedChunks, failedMarks) :=
    translateEngine cfg gcc segments none oracle
  let failedMarks :=
    List.zipWith (fun (tc : Option (List Segment)) f => f || tc.isNone)
      translatedChunks failedMarks
  let translatedChunks :=
    List.zipWith (fun (c : Chunk) tc => tc.getD c.Target) chunks translatedChunks
  let failedChunkIndices :=
    (List.range chunks.length).filter fun i => (failedMarks.get? i).getD false
  (translatedChunks.flatten, failedChunkIndices)

/-- Overwrite `base[start+j] := repl[j]` for every in-range position, as the
write-back loop of `TranslateChunks` does. -/
def overwriteAt (base : List Segment) (start : Nat) (repl : List Segment) :
    List Segment :=
  base.mapIdx fun p x =>
    if start ≤ p ∧ p < start + repl.length then repl.getD (p - start) x else x

/-- Model of `Translator.TranslateChunks`: translate only the requested
chunk indices, overwrite the successful chunks' slices over a copy of the
input, and report the failed chunk indices. -/
def TranslateChunks (cfg : TranslatorCfg) (gcc : String → Nat)
    (segments : List Segment) (chunkIndices : List Int)
    (oracle : Nat → Nat → Except GoError ResponseData) :
    List Segment × List Nat :=
  let (_, translatedChunks, failedMarks) :=
    translateEngine cfg gcc segments (some chunkIndices) oracle
  let translatedSegments :=
    (List.range translatedChunks.length).foldl
      (fun acc i =>
        match (translatedChunks.get? i).join with
        | none => acc
        | some translated => overwriteAt acc (i * cfg.chunkSize) translated)
      segments
  let failedChunkIndices :=
    (List.range translatedChunks.length).filter fun i =>
      (failedMarks.get? i).getD false
  (translatedSegments, failedChunkIndices)

/-! ### Language table (`internal/language`) -/

/-- The keys of the Go `language.Languages` map; `language.GetLanguage`
succeeds exactly on these codes. -/
def languageCodes : List String :=
  ["af", "sq", "am", "ar", "hy", "as", "az", "eu", "be", "bn", "bs", "bg",
   "ca", "ceb", "zh", "zh-Hans", "zh-Hant", "co", "hr", "cs", "da", "dv",
   "nl", "en", "eo", "et", "fil", "fi", "fr", "fy", "gl", "ka", "de", "el",
   "gu", "ht", "ha", "haw", "iw", "hi", "hmn", "hu", "is", "ig", "id", "ga",
   "it", "ja", "jv", "kn", "kk", "km", "ko", "kri", "ku", "ky", "lo", "la",
   "lv", "lt", "lb", "mk", "mg", "ms", "ml", "mt", "mi", "mr", "mni-Mtei",
   "mn", "my", "ne", "no", "ny", "or", "ps", "fa", "pl", "pt", "pa", "ro",
   "ru", "sm", "gd", "sr", "st", "sn", "sd", "si", "sk", "sl", "so", "es",
   "su", "sw", "sv", "tg", "ta", "te", "th", "tr", "uk", "ur", "ug", "uz",
   "vi", "cy", "xh", "yi", "yo", "zu"]

/-- Whether `language.GetLanguage(code)` reports the code as supported. -/
def isSupportedLanguage (code : String) : Bool := languageCodes.contains code

/-! ### Path helpers (`path/filepath` on a Unix platform) -/

/-- Model of `filepath.IsAbs` on Unix: the path begins with a slash. -/
def filepathIsAbs (path : String) : Bool := goStartsWith path "/"

/-- Element processing of `filepath.Clean`: skip empty and `.` elements,
let `..` pop a previous element (or survive at the front of a relative
path, or vanish at the root of an absolute one). -/
def cleanElems (rooted : Bool) (comps : List String) : List String :=
  comps.foldl
    (fun acc c =>
      if c = "" ∨ c = "." then acc
      else if c = ".." then
        if acc ≠ [] ∧ acc.getLast? ≠ some ".." then acc.dropLast
        else if rooted then acc
        else acc ++ [".."]
      else acc ++ [c])
    []

/-- Model of `filepath.Clean` on Unix (lexical path normalisation). -/
def filepathClean (path : String) : String :=
  if path = "" then "."
  else
    let rooted := goStartsWith path "/"
    let out := cleanElems rooted
      ((splitOnChar '/' path.data).map fun l => (⟨l⟩ : String))
    if rooted then ⟨'/' :: List.intercalate ['/'] (out.map String.data)⟩
    else if out = [] then "."
    else ⟨List.intercalate ['/'] (out.map String.data)⟩

/-! ### Recovery log (`internal/recovery`) -/

/-- The on-disk session state, as in the Go `recovery.SessionLog` struct. -/
structure SessionLog where
  LogVersion : Int
  InputPath : String
  OutputPath : String
  InputHash : String
  SegmentsChecksum : String
  Model : String
  NamesPath : String
  ChunkSize : Int
  ContextSize : Int
  Concurrency : Int
  NoPreprocess : Bool
  NoPostprocess : Bool
  NoLangPreprocess : Bool
  NoLangPostprocess : Bool
  NoPromptCPL : Bool
  SourceLang : String
  TargetLang : String
  FailedChunks : List Int
  TotalChunks : Int
  Status : String
  StatusReason : String
deriving Repr, DecidableEq

/-- The supported log schema version (`recovery.CurrentLogVersion`). -/
def CurrentLogVersion : Int := 4

/-- Model of `SessionLog.Validate`; a version of 0 is first normalised to
`CurrentLogVersion`, as the Go method does by mutating the receiver. -/
def SessionLog.Validate (log : SessionLog) : Except String Unit :=
  let version := if log.LogVersion = 0 then CurrentLogVersion else log.LogVersion
  if version ≠ CurrentLogVersion then .error "unsupported log_version"
  else if log.InputPath = "" then .error "input_path is empty"
  else if filepathIsAbs log.InputPath then
    .error "input_path must be relative, not absolute"
  else if log.OutputPath = "" then .error "output_path is empty"
  else if filepathIsAbs log.OutputPath then
    .error "output_path must be relative, not absolute"
  else if goStartsWith (filepathClean log.OutputPath) ".." then
    .error "output_path cannot traverse parent directories"
  else if log.NamesPath ≠ "" ∧ filepathIsAbs log.NamesPath then
    .error "names_path must be relative, not absolute"
  else if log.InputHash = "" then .error "input_hash is empty"
  else if ¬ goStartsWith log.InputHash "sha256:" then .error "invalid input_hash"
  else if log.SegmentsChecksum = "" then .error "segments_checksum is empty"
  else if ¬ goStartsWith log.SegmentsChecksum "sha256:" then
    .error "invalid segments_checksum"
  else if log.ChunkSize ≤ 0 then .error "invalid chunk_size"
  else if log.Concurrency ≤ 0 then .error "invalid concurrency"
  else if log.ContextSize < 0 then .error "invalid context_size"
  else if log.TotalChunks ≤ 0 then .error "invalid total_chunks"
  else if log.FailedChunks.length = 0 then .error "failed_chunks list is empty"
  else if ¬ log.FailedChunks.all (fun idx => 0 ≤ idx ∧ idx < log.TotalChunks) then
    .error "failed chunk index out of range"
  else if ¬ isSupportedLanguage log.SourceLang then
    .error "unsupported source language"
  else if ¬ isSupportedLanguage log.TargetLang then
    .error "unsupported target language"
  else if log.Model = "" then .error "model name is empty"
  else if log.Status = "" then .error "session status is empty"
  else if log.StatusReason ≠ "" ∧ log.StatusReason ≠ "canceled" then
    .error "invalid status_reason"
  else .ok ()

/-! ### Preprocessor (`internal/srt/preprocess.go`) -/

/-- Mapping from post-preprocess IDs to original IDs (`srt.IDMap`). -/
structure IDMap where
  InternalID : Int
  OriginalID : Int
deriving Repr, DecidableEq

/-- The closing character matching an opening bracket of `parenRegex`
(`\([^)]*\)|\[[^\]]*\]|（[^）]*）|［[^］]*］`). -/
def closerFor (c : Char) : Option Char :=
  if c = '(' then some ')'
  else if c = '[' then some ']'
  else if c = '（' then some '）'
  else if c = '［' then some '］'
  else none

/-- Model of `parenRegex.ReplaceAllString(line, "")`: each opening bracket
with a matching closer later in the line deletes everything up to the first
such closer; an unmatched opener is kept. -/
def stripBracketsGo : List Char → List Char
  | [] => []
  | c :: rest =>
    match closerFor c with
    | none => c :: stripBracketsGo rest
    | some cl =>
      let after := rest.dropWhile (· ≠ cl)
      if after = [] then c :: stripBracketsGo rest
      else stripBracketsGo (after.drop 1)
termination_by l => l.length
decreasing_by
  all_goals first
  | (simp only [List.length_cons]; omega)
  | (have hdw : (rest.dropWhile (· ≠ cl)).length ≤ rest.length :=
       (List.dropWhile_sublist _).length_le
     simp only [List.length_cons, List.length_drop]
     omega)

/-- Per-line cleaning of `PreprocessWithMappingOptions`: bracket stripping
and `<`/`>` removal for Japanese with language rules on, whitespace trim,
dropping lines that become empty. -/
def preprocessLines (applyLangRules : Bool) (sourceLangCode : String)
    (lines : List String) : List String :=
  lines.foldr
    (fun line acc =>
      let cleanedLine :=
        if applyLangRules ∧ sourceLangCode = "ja" then
          (⟨(stripBracketsGo line.data).filter fun c => c ≠ '<' ∧ c ≠ '>'⟩ : String)
        else line
      let cleanedLine := goTrimSpace cleanedLine
      if cleanedLine ≠ "" then cleanedLine :: acc else acc)
    []

/-- Model of the preprocessor's `isMeaningless`: no rune of any line is a
letter or a number; `isLN` abstracts `unicode.IsLetter || unicode.IsNumber`. -/
def isMeaningless (isLN : Char → Bool) (lines : List String) : Bool :=
  lines.all fun line => line.data.all fun r => ¬ isLN r

/-- Model of `srt.PreprocessWithMappingOptions`: clean lines, drop emptied
or (for Japanese) meaningless segments, then assign dense IDs `1..N` and
record the mapping. -/
def PreprocessWithMappingOptions (isLN : Char → Bool)
    (segments : List Segment) (sourceLangCode : String)
    (applyLangRules : Bool) : List Segment × List IDMap :=
  let kept := segments.filterMap fun seg =>
    let newLines := preprocessLines applyLangRules sourceLangCode seg.Lines
    if newLines = [] then none
    else if applyLangRules ∧ sourceLangCode = "ja" ∧ isMeaningless isLN newLines then
      none
    else some (seg.ID, { seg with Lines := newLines })
  let cleaned := kept.enum.map fun (i, p) =>
    { p.2 with ID := ((i : Int) + 1) }
  let mapping := kept.enum.map fun (i, p) =>
    ({ InternalID := (i : Int) + 1, OriginalID := p.1 } : IDMap)
  (cleaned, mapping)

/-- Model of `srt.PreprocessWithOptions`. -/
def PreprocessWithOptions (isLN : Char → Bool) (segments : List Segment)
    (sourceLangCode : String) (applyLangRules : Bool) : List Segment :=
  (PreprocessWithMappingOptions isLN segments sourceLangCode applyLangRules).1

/-- Inner loop of `mergeConsecutiveSameTimestampSegments`: `current`
accumulates the lines of a run of consecutive segments sharing its
timestamps. -/
def mergeRun (current : Segment) : List Segment → List Segment
  | [] => [current]
  | next :: rest =>
    if next.StartTime = current.StartTime ∧ next.EndTime = current.EndTime then
      mergeRun { current with Lines := current.Lines ++ next.Lines } rest
    else current :: mergeRun next rest

/-- Model of `srt.mergeConsecutiveSameTimestampSegments`. -/
def mergeConsecutiveSameTimestampSegments (segments : List Segment) :
    List Segment :=
  if segments.length < 2 then segments
  else
    match segments with
    | [] => []
    | first :: rest => mergeRun first rest

/-- Model of `filepath.Ext`: the suffix of the last path element starting
at its final dot, empty when there is none. -/
def filepathExt (path : String) : String :=
  let tail := path.data.reverse.takeWhile (· ≠ '/')
  if tail.dropWhile (· ≠ '.') = [] then ""
  else ⟨'.' :: (tail.takeWhile (· ≠ '.')).reverse⟩

/-- Model of `srt.normalizeBySourcePath`: apply the same-timestamp merge
only when the source path has a `.vtt` extension
(`strings.EqualFold`, which on these ASCII letters is case folding). -/
def normalizeBySourcePath (segments : List Segment) (sourcePath : String) :
    List Segment :=
  if asciiLower (filepathExt sourcePath) ≠ ".vtt" then segments
  else mergeConsecutiveSameTimestampSegments segments

/-- Model of `srt.PreprocessForPathWithMappingOptions`. -/
def PreprocessForPathWithMappingOptions (isLN : Char → Bool)
    (segments : List Segment) (sourceLangCode sourcePath : String)
    (applyLangRules : Bool) : List Segment × List IDMap :=
  PreprocessWithMappingOptions isLN (normalizeBySourcePath segments sourcePath)
    sourceLangCode applyLangRules

/-- Model of `srt.PreprocessForPathWithOptions`. -/
def PreprocessForPathWithOptions (isLN : Char → Bool)
    (segments : List Segment) (sourceLangCode sourcePath : String)
    (applyLangRules : Bool) : List Segment :=
  (PreprocessForPathWithMappingOptions isLN segments sourceLangCode sourcePath
    applyLangRules).1

/-- The preprocessing step of the translation pipeline (`RunTranslation`,
step 2): `srt.PreprocessWithMappingOptions(segments, srcLang.Code,
!cfg.NoLangPreprocess)` — the source path plays no part in it. -/
def runTranslationPreprocess (isLN : Char → Bool) (segments : List Segment)
    (srcLangCode : String) (noLangPreprocess : Bool) :
    List Segment × List IDMap :=
  PreprocessWithMappingOptions isLN segments srcLangCode (¬ noLangPreprocess)

/-! ### Repair (`internal/recovery/repair.go`) -/

/-- Model of `recovery.Repair`.  File I/O is abstracted: `loadedInput` is
what `srt.Load(log.InputPath)` returned (the error case aborts before the
modelled code) and `loadedOutput` is the result of
`srt.Load(resolvedOutputPath)`.  The merge loop iterates over the set of
newly succeeded chunks; their position ranges are disjoint, so the map
iteration order is immaterial and the loop is rendered position-wise. -/
def Repair (cfg : TranslatorCfg) (gcc : String → Nat) (isLN : Char → Bool)
    (log : SessionLog) (loadedInput : List Segment)
    (loadedOutput : Except String (List Segment)) (forceRepair : Bool)
    (oracle : Nat → Nat → Except GoError ResponseData) :
    Except String (List Segment × List Nat) :=
  let segments :=
    if ¬ log.NoPreprocess then
      PreprocessWithOptions isLN loadedInput log.SourceLang (¬ log.NoLangPreprocess)
    else loadedInput
  let outputUnusable : Bool :=
    match loadedOutput with
    | .error _ => true
    | .ok currentOutput => currentOutput.length ≠ segments.length
  let results :=
    match loadedOutput with
    | .error _ => segments
    | .ok currentOutput =>
      if currentOutput.length ≠ segments.length then segments else currentOutput
  if outputUnusable ∧ ¬ forceRepair then
    .error "existing output could not be reused"
  else
    let targetChunks : List Int :=
      if outputUnusable then
        let totalChunks := ((segments.length : Int) + log.ChunkSize - 1) / log.ChunkSize
        (List.range totalChunks.toNat).map Int.ofNat
      else log.FailedChunks
    let (translated, newFailedChunks) :=
      TranslateChunks cfg gcc segments targetChunks oracle
    let newlySucceeded : Int → Bool := fun idx =>
      targetChunks.contains idx && ¬ (newFailedChunks.map Int.ofNat).contains idx
    let results := results.mapIdx fun p x =>
      if targetChunks.any fun cIdx =>
          newlySucceeded cIdx ∧
          cIdx * log.ChunkSize ≤ (p : Int) ∧
          (p : Int) < cIdx * log.ChunkSize + log.ChunkSize then
        translated.getD p x
      else x
    .ok (results, newFailedChunks)

/-! ### Postprocessor (`internal/srt`, unnamed postprocess source file) -/

/-- Model of `ellipsisRegex.ReplaceAllString(line, "…")` for the pattern
`\.{3}`: leftmost, non-overlapping triples of dots become `…`. -/
def replaceEllipsis : List Char → List Char
  | '.' :: '.' :: '.' :: rest => '…' :: replaceEllipsis rest
  | c :: rest => c :: replaceEllipsis rest
  | [] => []

/-- ASCII digit test, as the postprocessor's `isDigit`. -/
def goIsDigit (r : Char) : Bool := '0' ≤ r ∧ r ≤ '9'

/-- ASCII letter test, as the postprocessor's `isAlpha`. -/
def goIsAlpha (r : Char) : Bool := ('a' ≤ r ∧ r ≤ 'z') ∨ ('A' ≤ r ∧ r ≤ 'Z')

/-- ASCII upper-case test, as the postprocessor's `isUpper`. -/
def goIsUpper (r : Char) : Bool := 'A' ≤ r ∧ r ≤ 'Z'

/-- Both-sides character-class test used by the period exceptions. -/
def pairTest (f : Char → Bool) (prev next : Option Char) : Bool :=
  match prev, next with
  | some a, some b => f a && f b
  | _, _ => false

/-- Model of the postprocessor's `isException` at a period: `prev` is the
rune before it (if any) and `rest` the runes after it. -/
def isException (prev : Option Char) (rest : List Char) : Bool :=
  decide (prev = some '.') || decide (rest.head? = some '.') ||
  pairTest goIsDigit prev rest.head? || pairTest goIsAlpha prev rest.head? ||
  prev.elim false goIsUpper

/-- Loop of the Korean `processPeriods`, carrying the previous original
rune. -/
def processPeriodsGo (prev : Option Char) : List Char → List Char
  | [] => []
  | c :: rest =>
    if c = '.' then
      if isException prev rest then '.' :: processPeriodsGo (some '.') rest
      else if rest.all (fun x => x = ' ' ∨ x = ',' ∨ x = '!' ∨ x = '?') then
        processPeriodsGo (some '.') rest
      else ',' :: processPeriodsGo (some '.') rest
    else c :: processPeriodsGo (some c) rest

/-- Model of the Korean `processPeriods`. -/
def processPeriods (l : List Char) : List Char := processPeriodsGo none l

/-- Model of the Korean `cleanPunctuation`. -/
def cleanPunctuation (seg : Segment) : Segment :=
  { seg with
    Lines := seg.Lines.foldr
      (fun line acc =>
        let line := (⟨replaceEllipsis line.data⟩ : String)
        let line := (⟨line.data.filter fun c => c ≠ '<' ∧ c ≠ '>'⟩ : String)
        let line := (⟨processPeriods line.data⟩ : String)
        let line := goTrimRightChar ',' line
        let line := goTrimSpace line
        if line ≠ "" then line :: acc else acc)
      [] }

/-- The space runes that the Japanese processors treat as line-end filler
(half-width and ideographic). -/
def isJPSpace (c : Char) : Bool := c = ' ' ∨ c = '　'

/-- Model of `processJapaneseComma`: an ideographic comma followed only by
spaces is removed with them; in mid-line it becomes a half-width space and
the following spaces are skipped. -/
def processJapaneseComma : List Char → List Char
  | [] => []
  | c :: rest =>
    if c = '、' then
      let rest' := rest.dropWhile isJPSpace
      if rest' = [] then []
      else ' ' :: processJapaneseComma rest'
    else c :: processJapaneseComma rest
termination_by l => l.length
decreasing_by
  all_goals first
  | (simp only [List.length_cons]; omega)
  | (have hdw : (rest.dropWhile isJPSpace).length ≤ rest.length :=
       (List.dropWhile_sublist _).length_le
     simp only [List.length_cons]
     omega)

/-- Model of `processJapanesePeriod`: like the comma, but a mid-line
ideographic period becomes a full-width space. -/
def processJapanesePeriod : List Char → List Char
  | [] => []
  | c :: rest =>
    if c = '。' then
      let rest' := rest.dropWhile isJPSpace
      if rest' = [] then []
      else '　' :: processJapanesePeriod rest'
    else c :: processJapanesePeriod rest
termination_by l => l.length
decreasing_by
  all_goals first
  | (simp only [List.length_cons]; omega)
  | (have hdw : (rest.dropWhile isJPSpace).length ≤ rest.length :=
       (List.dropWhile_sublist _).length_le
     simp only [List.length_cons]
     omega)

/-- Model of `cleanJapanesePunctuation`. -/
def cleanJapanesePunctuation (seg : Segment) : Segment :=
  { seg with
    Lines := seg.Lines.foldr
      (fun line acc =>
        let line := (⟨replaceEllipsis line.data⟩ : String)
        let line := (⟨processJapaneseComma line.data⟩ : String)
        let line := (⟨processJapanesePeriod line.data⟩ : String)
        let line := goTrimSpace line
        if line ≠ "" then line :: acc else acc)
      [] }

/-- Model of `processChineseIdeographicComma`: drop `、` at line end
(ignoring half-width spaces), keep it mid-line. -/
def processChineseIdeographicComma : List Char → List Char
  | [] => []
  | c :: rest =>
    if c = '、' then
      if rest.all (· = ' ') then processChineseIdeographicComma rest
      else '、' :: processChineseIdeographicComma rest
    else c :: processChineseIdeographicComma rest

/-- Loop of `processChineseComma`, carrying the previous original rune. -/
def processChineseCommaGo (prev : Option Char) : List Char → List Char
  | [] => []
  | r :: rest =>
    if r = ',' ∨ r = '，' then
      if r = ',' ∧ pairTest goIsDigit prev rest.head? then
        ',' :: processChineseCommaGo (some r) rest
      else if rest.all (· = ' ') then processChineseCommaGo (some r) rest
      else '，' :: processChineseCommaGo (some r) rest
    else r :: processChineseCommaGo (some r) rest

/-- Model of `processChineseComma`. -/
def processChineseComma (l : List Char) : List Char := processChineseCommaGo none l

/-- Loop of `processChinesePeriod`, carrying the previous original rune. -/
def processChinesePeriodGo (prev : Option Char) : List Char → List Char
  | [] => []
  | r :: rest =>
    if r = '.' ∨ r = '。' then
      if r = '.' ∧ isException prev rest then
        '.' :: processChinesePeriodGo (some r) rest
      else if rest.all (· = ' ') then processChinesePeriodGo (some r) rest
      else '，' :: processChinesePeriodGo (some r) rest
    else r :: processChinesePeriodGo (some r) rest

/-- Model of `processChinesePeriod`. -/
def processChinesePeriod (l : List Char) : List Char := processChinesePeriodGo none l

/-- The character class `\s` of Go's RE2 (`[\t\n\f\r ]`). -/
def isReSpace (c : Char) : Bool :=
  c = ' ' ∨ c = '\t' ∨ c = '\n' ∨ c = '\x0c' ∨ c = '\r'

/-- Model of `multiSpaceRegex.ReplaceAllString(line, " ")` for the pattern
`\s+`: each maximal run of whitespace becomes a single half-width space. -/
def collapseSpaces : List Char → List Char
  | [] => []
  | c :: rest =>
    if isReSpace c then ' ' :: collapseSpaces (rest.dropWhile isReSpace)
    else c :: collapseSpaces rest
termination_by l => l.length
decreasing_by
  all_goals first
  | (simp only [List.length_cons]; omega)
  | (have hdw : (rest.dropWhile isReSpace).length ≤ rest.length :=
       (List.dropWhile_sublist _).length_le
     simp only [List.length_cons]
     omega)

/-- Model of `strings.ReplaceAll(line, "， ", "，")`. -/
def removeSpaceAfterFullComma : List Char → List Char
  | '，' :: ' ' :: rest => '，' :: removeSpaceAfterFullComma rest
  | c :: rest => c :: removeSpaceAfterFullComma rest
  | [] => []

/-- Model of `cleanTraditionalChinesePunctuation`. -/
def cleanTraditionalChinesePunctuation (seg : Segment) : Segment :=
  { seg with
    Lines := seg.Lines.foldr
      (fun line acc =>
        let line := (⟨replaceEllipsis line.data⟩ : String)
        let line := (⟨processChineseIdeographicComma line.data⟩ : String)
        let line := (⟨processChineseComma line.data⟩ : String)
        let line := (⟨processChinesePeriod line.data⟩ : String)
        let line := (⟨collapseSpaces line.data⟩ : String)
        let line := (⟨removeSpaceAfterFullComma line.data⟩ : String)
        let line := goTrimSpace line
        if line ≠ "" then line :: acc else acc)
      [] }

/-- Loop of `processSimplifiedChinesePunctuation`, carrying the previous
original rune. -/
def processSimplifiedChinesePunctuationGo (prev : Option Char) :
    List Char → List Char
  | [] => []
  | r :: rest =>
    if r = ',' ∨ r = '，' ∨ r = '.' ∨ r = '。' then
      if (r = ',' ∨ r = '.') ∧ pairTest goIsDigit prev rest.head? then
        r :: processSimplifiedChinesePunctuationGo (some r) rest
      else if r = '.' ∧ isException prev rest then
        '.' :: processSimplifiedChinesePunctuationGo (some r) rest
      else if rest.all (· = ' ') then
        processSimplifiedChinesePunctuationGo (some r) rest
      else ' ' :: processSimplifiedChinesePunctuationGo (some r) rest
    else r :: processSimplifiedChinesePunctuationGo (some r) rest

/-- Model of `processSimplifiedChinesePunctuation`. -/
def processSimplifiedChinesePunctuation (l : List Char) : List Char :=
  processSimplifiedChinesePunctuationGo none l

/-- Model of `cleanSimplifiedChinesePunctuation`. -/
def cleanSimplifiedChinesePunctuation (seg : Segment) : Segment :=
  { seg with
    Lines := seg.Lines.foldr
      (fun line acc =>
        let line := (⟨replaceEllipsis line.data⟩ : String)
        let line := (⟨processChineseIdeographicComma line.data⟩ : String)
        let line := (⟨processSimplifiedChinesePunctuation line.data⟩ : String)
        let line := (⟨collapseSpaces line.data⟩ : String)
        let line := goTrimSpace line
        if line ≠ "" then line :: acc else acc)
      [] }

/-!  #### IEEE-754 binary64 model

Go's `correctTiming` computes durations in `float64`.  A `float64` value is
modelled exactly as a dyadic number `m * 2 ^ e` (structure `F64`), and each
Go operation rounds its exact result to 53 significand bits with
round-to-nearest, ties-to-even — the IEEE-754 binary64 rule on the normal
range.  Every value this code can produce lies well inside the normal
range (magnitudes between `1e-9` and `2^90`), so overflow, subnormals and
signed zeros are unreachable and not modelled. -/

/-- Bit length of a natural number (`⌈log2 (n+1)⌉`), by fuelled structural
recursion so that it evaluates inside the kernel; 4096 bits is far beyond
any number this development manipulates. -/
def bitLenAux : Nat → Nat → Nat
  | 0, _ => 0
  | fuel + 1, n => if n = 0 then 0 else bitLenAux fuel (n / 2) + 1

def bitLen (n : Nat) : Nat := bitLenAux 4096 n

/-- A binary64 value, exactly: `m * 2 ^ e`. -/
structure F64 where
  m : Int
  e : Int
deriving Repr, DecidableEq

/-- Round the dyadic number `M * 2 ^ E` to 53 significand bits,
nearest-even. -/
def roundDyadic (M E : Int) : F64 :=
  if M = 0 then ⟨0, 0⟩
  else
    let s : Int := if M < 0 then -1 else 1
    let A := M.natAbs
    let L := bitLen A
    if L ≤ 53 then ⟨s * A, E⟩
    else
      let sh := L - 53
      let q := A / 2 ^ sh
      let r := A % 2 ^ sh
      let half := 2 ^ (sh - 1)
      let q2 := if r > half then q + 1
        else if r < half then q
        else if q % 2 = 0 then q else q + 1
      ⟨s * q2, E + sh⟩

/-- Round the rational `p / q` (with `q > 0`) to a binary64 value,
nearest-even: scale into `[2^52, 2^53)` and round the scaled integer. -/
def roundRat (p q : Int) : F64 :=
  if p = 0 then ⟨0, 0⟩
  else
    let s : Int := if p < 0 then -1 else 1
    let P := p.natAbs
    let Q := q.natAbs
    let a := bitLen P
    let b := bitLen Q
    let t1 : Int := 53 + (b : Int) - a
    let num1 := P * 2 ^ t1.toNat
    let den1 := Q * 2 ^ (-t1).toNat
    let t : Int := if num1 / den1 ≥ 2 ^ 53 then t1 - 1 else t1
    let num := P * 2 ^ t.toNat
    let den := Q * 2 ^ (-t).toNat
    let n := num / den
    let r := num % den
    let n2 := if 2 * r > den then n + 1
      else if 2 * r < den then n
      else if n % 2 = 0 then n else n + 1
    ⟨s * n2, -t⟩

/-- Go `float64(z)` for an integer `z` (exact below `2^53`, rounded
above). -/
def f64ofInt (z : Int) : F64 := roundDyadic z 0

def f64neg (x : F64) : F64 := ⟨-x.m, x.e⟩

/-- binary64 addition: exact dyadic sum, then one rounding. -/
def f64add (x y : F64) : F64 :=
  let e := min x.e y.e
  roundDyadic (x.m * 2 ^ (x.e - e).toNat + y.m * 2 ^ (y.e - e).toNat) e

def f64sub (x y : F64) : F64 := f64add x (f64neg y)

/-- binary64 multiplication: exact dyadic product, then one rounding. -/
def f64mul (x y : F64) : F64 := roundDyadic (x.m * y.m) (x.e + y.e)

/-- binary64 division: exact rational quotient, then one rounding. -/
def f64div (x y : F64) : F64 :=
  let d := x.e - y.e
  if 0 ≤ d then roundRat (x.m * 2 ^ d.toNat) y.m
  else roundRat x.m (y.m * 2 ^ (-d).toNat)

/-- Go `<` on `float64`: exact comparison of the represented values. -/
def f64lt (x y : F64) : Bool :=
  let e := min x.e y.e
  decide (x.m * 2 ^ (x.e - e).toNat < y.m * 2 ^ (y.e - e).toNat)

/-- `if a < b { a = b }` — the shape both clamps in `correctTiming`
take. -/
def f64max (x y : F64) : F64 := if f64lt x y then y else x

/-- Go's `int64(x)` / `time.Duration(x)` conversion of a `float64`:
truncation toward zero; an out-of-range value yields the amd64 result
`math.MinInt64` (the Go spec leaves it implementation-defined). -/
def f64toInt64 (x : F64) : Int :=
  let t := if 0 ≤ x.e then x.m * 2 ^ x.e.toNat
    else Int.tdiv x.m (2 ^ (-x.e).toNat)
  if t ≥ 9223372036854775808 ∨ t < -9223372036854775808 then
    -9223372036854775808
  else t

/-- The `float64` nearest to the Go source literal `0.8`. -/
def c08 : F64 := roundRat 4 5

/-- Go `time.Duration.Seconds()`:
`float64(d / 1e9) + float64(d % 1e9) / 1e9`, with Go's truncated integer
division and remainder and a rounding at the division and the addition. -/
def goSeconds (d : Int) : F64 :=
  f64add (f64ofInt (Int.tdiv d 1000000000))
    (f64div (f64ofInt (Int.tmod d 1000000000)) (f64ofInt 1000000000))

/-- Step 1 of `correctTiming` on one segment (`cps` is the effective CPS,
already defaulted): enforce the minimum duration of 0.8 s and the
readability duration `totalChars / cps`, leaving segments with unparseable
timestamps alone.  The arithmetic follows the Go source operation by
operation: `end.Seconds() - start.Seconds()` in binary64, comparison with
the double `0.8`, `float64(totalChars) / float64(cps)`, the product
`duration * float64(time.Second)`, its truncating `time.Duration`
conversion, and the wrapping `int64` addition `start + …`. -/
def correctTimingStep1 (gcc : String → Nat) (cps : Int) (seg : Segment) :
    Segment :=
  match ParseTimestamp seg.StartTime, ParseTimestamp seg.EndTime with
  | some start, some endT =>
    let duration := f64sub (goSeconds endT) (goSeconds start)
    let totalChars : Nat := (seg.Lines.map gcc).sum
    let duration := if f64lt duration c08 then c08 else duration
    let reqDuration := f64div (f64ofInt (totalChars : Int)) (f64ofInt cps)
    let duration := if f64lt duration reqDuration then reqDuration
      else duration
    { seg with EndTime := FormatTimestamp (wrap64 (start +
        f64toInt64 (f64mul duration (f64ofInt 1000000000)))) }
  | _, _ => seg

/-- Step 2 of `correctTiming` on one segment, given the next segment's
(never modified) start-time string: pull the end time back to 5 ms before
the next start, unless that would end before the segment starts.  The
subtraction `nextStart - gap` is a wrapping `int64` operation. -/
def overlapPair (x : Segment) (nextStartStr : String) : Segment :=
  match ParseTimestamp x.EndTime, ParseTimestamp nextStartStr with
  | some currEnd, some nextStart =>
    let gap : Int := 5000000
    let targetEnd := wrap64 (nextStart - gap)
    if currEnd > targetEnd then
      match ParseTimestamp x.StartTime with
      | none => x
      | some currStart =>
        if targetEnd ≥ currStart then
          { x with EndTime := FormatTimestamp targetEnd }
        else x
    else x
  | _, _ => x

/-- The overlap-prevention pass of `correctTiming` (its loop reads only the
next segment's start time, which no step modifies, so the sequential
in-place loop is this recursion). -/
def overlapFix : List Segment → List Segment
  | [] => []
  | [x] => [x]
  | x :: y :: rest => overlapPair x y.StartTime :: overlapFix (y :: rest)

/-- Model of the postprocessor's `correctTiming`. -/
def correctTiming (gcc : String → Nat) (segments : List Segment)
    (targetCPS : Int) : List Segment :=
  if segments.length = 0 then segments
  else
    let cps := if targetCPS ≤ 0 then 12 else targetCPS
    overlapFix (segments.map (correctTimingStep1 gcc cps))

/-- Model of `srt.PostprocessWithOptions`: optional language-dispatched
punctuation cleanup, then timing correction. -/
def PostprocessWithOptions (gcc : String → Nat) (segments : List Segment)
    (targetLangCode : String) (targetCPS : Int) (applyLangRules : Bool) :
    List Segment :=
  let segments :=
    if applyLangRules then
      if targetLangCode = "ko" then segments.map cleanPunctuation
      else if targetLangCode = "ja" then segments.map cleanJapanesePunctuation
      else if targetLangCode = "zh-Hant" then
        segments.map cleanTraditionalChinesePunctuation
      else if targetLangCode = "zh" ∨ targetLangCode = "zh-Hans" then
        segments.map cleanSimplifiedChinesePunctuation
      else segments
    else segments
  correctTiming gcc segments targetCPS

/-- Specification-side rendering of the timing-correction claim, following
its wording in exact (real-number) arithmetic: each parseable segment's end
time becomes its start time plus `max(original duration, 0.8 s, total
grapheme count / targetCPS)` with `targetCPS` falling back to 12 when
non-positive; then each adjacent pair whose end exceeds the next start
minus 5 ms is clamped to that bound when it does not precede the segment's
own start; unparseable segments are left unchanged.  The formula is stated
over integer nanoseconds: `⌊max(d, 0.8, c/cps) * 1e9⌋` equals
`max(d*1e9, 8e8, ⌊c*1e9/cps⌋)` because the floor is monotone and the first
two scaled terms are already integers, so the real-number claim
specialises without loss. -/
def correctTimingSpec (gcc : String → Nat) (segments : List Segment)
    (targetCPS : Int) : List Segment :=
  let cps : Int := if targetCPS ≤ 0 then 12 else targetCPS
  let lengthened := segments.map fun seg =>
    match ParseTimestamp seg.StartTime, ParseTimestamp seg.EndTime with
    | some start, some endT =>
      let newDurationNs : Int :=
        max (max (endT - start) 800000000)
          ((((seg.Lines.map gcc).sum : Int) * 1000000000) / cps)
      { seg with EndTime := FormatTimestamp (start + newDurationNs) }
    | _, _ => seg
  (List.range lengthened.length).map fun i =>
    match lengthened.get? i with
    | none => { ID := 0, StartTime := "", EndTime := "", Lines := [] }
    | some x =>
      match lengthened.get? (i + 1) with
      | none => x
      | some next =>
        match ParseTimestamp x.EndTime, ParseTimestamp next.StartTime,
            ParseTimestamp x.StartTime with
        | some currEnd, some nextStart, some currStart =>
          if currEnd > nextStart - 5000000 ∧ nextStart - 5000000 ≥ currStart then
            { x with EndTime := FormatTimestamp (nextStart - 5000000) }
          else x
        | _, _, _ => x

/-- Specification-side rendering of the amended timing-correction claim:
the same max-of-three formula, but computed — as the program computes it —
in binary64 arithmetic with the truncating `time.Duration` conversion and
wrapping `int64` addition and subtraction, so the stored millisecond can
differ from the exact real-number formula at extreme (yet valid)
timestamps. -/
def correctTimingSpecF (gcc : String → Nat) (segments : List Segment)
    (targetCPS : Int) : List Segment :=
  let cps : Int := if targetCPS ≤ 0 then 12 else targetCPS
  let lengthened := segments.map fun seg =>
    match ParseTimestamp seg.StartTime, ParseTimestamp seg.EndTime with
    | some start, some endT =>
      let newDuration : F64 :=
        f64max (f64max (f64sub (goSeconds endT) (goSeconds start)) c08)
          (f64div (f64ofInt (((seg.Lines.map gcc).sum : Nat) : Int))
            (f64ofInt cps))
      { seg with EndTime := FormatTimestamp (wrap64 (start +
          f64toInt64 (f64mul newDuration (f64ofInt 1000000000)))) }
    | _, _ => seg
  (List.range lengthened.length).map fun i =>
    match lengthened.get? i with
    | none => { ID := 0, StartTime := "", EndTime := "", Lines := [] }
    | some x =>
      match lengthened.get? (i + 1) with
      | none => x
      | some next =>
        match ParseTimestamp x.EndTime, ParseTimestamp next.StartTime,
            ParseTimestamp x.StartTime with
        | some currEnd, some nextStart, some currStart =>
          if currEnd > wrap64 (nextStart - 5000000) ∧
              wrap64 (nextStart - 5000000) ≥ currStart then
            { x with EndTime := FormatTimestamp (wrap64 (nextStart - 5000000)) }
          else x
        | _, _, _ => x

/-! ## Theorems -/

/-! ### C1: the chunker -/

theorem numChunks_pos_step (x cs : Nat) (hcs : 0 < cs) (hx : 0 < x) :
    numChunks x cs = numChunks (x - cs) cs + 1 := by
  unfold numChunks
  rcases le_or_lt x cs with h | h
  · have h0 : x - cs = 0 := by omega
    rw [h0]
    have h1 : (0 + cs - 1) / cs = 0 := Nat.div_eq_of_lt (by omega)
    rw [h1]
    exact Nat.div_eq_of_lt_le (by omega) (by omega)
  · have h2 : x + cs - 1 = (x - cs + cs - 1) + cs := by omega
    rw [h2, Nat.add_div_right _ hcs]

theorem le_numChunks_mul (n cs : Nat) (hcs : 0 < cs) :
    n ≤ numChunks n cs * cs := by
  have h : n ≤ cs • (n ⌈/⌉ cs) := le_smul_ceilDiv hcs
  have hrfl : (n ⌈/⌉ cs : ℕ) = numChunks n cs := rfl
  rw [smul_eq_mul, hrfl, mul_comm] at h
  exact h

theorem numChunks_zero (cs : Nat) (hcs : 0 < cs) : numChunks 0 cs = 0 := by
  unfold numChunks
  exact Nat.div_eq_of_lt (by omega)

theorem splitIntoChunksGo_eq (segments : List Segment) (cs ctx : Nat)
    (hcs : 0 < cs) :
    ∀ fuel i k, segments.length - i ≤ fuel →
      splitIntoChunksGo segments cs ctx i k =
        (List.range (numChunks (segments.length - i) cs)).map
          (fun j => chunkAt segments cs ctx (i + j * cs) (k + j)) := by
  intro fuel
  induction fuel with
  | zero =>
    intro i k hf
    rw [splitIntoChunksGo, dif_neg (by omega)]
    have h0 : segments.length - i = 0 := by omega
    rw [h0, numChunks_zero cs hcs]
    simp
  | succ fuel ih =>
    intro i k hf
    rw [splitIntoChunksGo]
    by_cases hi : i < segments.length
    · rw [dif_pos ⟨hi, hcs⟩]
      have hstep : numChunks (segments.length - i) cs =
          numChunks (segments.length - min (i + cs) segments.length) cs + 1 := by
        have h1 : segments.length - min (i + cs) segments.length =
            segments.length - i - cs := by omega
        rw [h1]
        exact numChunks_pos_step _ _ hcs (by omega)
      rw [hstep, List.range_succ_eq_map, List.map_cons, List.map_map,
        List.cons_eq_cons]
      refine ⟨?_, ?_⟩
      · have htarget : (segments.drop i).take (min (i + cs) segments.length - i) =
            (segments.drop i).take cs := by
          rw [List.take_eq_take]
          simp only [List.length_drop]
          omega
        have hbefore : i - (i - ctx) = min i ctx := by omega
        have hdrop : segments.drop (min (i + cs) segments.length) =
            segments.drop (i + cs) := by
          rcases le_or_lt (i + cs) segments.length with h | h
          · rw [min_eq_left h]
          · rw [min_eq_right (by omega), List.drop_length,
              List.drop_eq_nil_of_le (by omega)]
        have hafter :
            (segments.drop (min (i + cs) segments.length)).take
              (min (min (i + cs) segments.length + ctx) segments.length -
                min (i + cs) segments.length) =
            (segments.drop (i + cs)).take ctx := by
          rw [hdrop, List.take_eq_take]
          simp only [List.length_drop]
          omega
        unfold chunkAt
        simp only [Nat.zero_mul, Nat.add_zero]
        rw [htarget, hbefore, hafter]
      · rw [ih (min (i + cs) segments.length) (k + 1) (by omega)]
        apply List.map_congr_left
        intro j hj
        rcases le_or_lt (i + cs) segments.length with h | h
        · simp only [Function.comp, min_eq_left h, Nat.succ_mul]
          congr 1 <;> omega
        · exfalso
          have h1 : segments.length - min (i + cs) segments.length = 0 := by
            omega
          rw [h1, numChunks_zero cs hcs] at hj
          simp at hj
    · rw [dif_neg (by omega)]
      have h0 : segments.length - i = 0 := by omega
      rw [h0, numChunks_zero cs hcs]
      simp

theorem SplitIntoChunks_eq (segments : List Segment) (cs ctx : Nat)
    (hcs : 0 < cs) :
    SplitIntoChunks segments cs ctx =
      (List.range (numChunks segments.length cs)).map
        (fun k => chunkAt segments cs ctx (k * cs) k) := by
  unfold SplitIntoChunks
  rw [splitIntoChunksGo_eq segments cs ctx hcs segments.length 0 0 (by omega)]
  simp

theorem flatten_take_chunks (cs : Nat) :
    ∀ (m : Nat) (s : List Segment), s.length ≤ m * cs →
      ((List.range m).map (fun k => (s.drop (k * cs)).take cs)).flatten = s := by
  intro m
  induction m with
  | zero =>
    intro s h
    simp only [Nat.zero_mul, Nat.le_zero] at h
    rw [List.eq_nil_of_length_eq_zero h]
    simp
  | succ m ih =>
    intro s h
    rw [List.range_succ_eq_map, List.map_cons, List.map_map]
    simp only [Nat.zero_mul, List.drop_zero, Function.comp_def, Nat.succ_mul]
    rw [List.flatten_cons]
    have hshift : ∀ j : Nat,
        (s.drop (j * cs + cs)).take cs = ((s.drop cs).drop (j * cs)).take cs := by
      intro j
      rw [List.drop_drop, Nat.add_comm]
    have h' : s.length ≤ m * cs + cs := by
      rw [Nat.succ_mul] at h
      exact h
    rw [List.map_congr_left (fun j _ => hshift j),
      ih (s.drop cs) (by simp only [List.length_drop]; omega)]
    exact List.take_append_drop cs s

/-- C1: for chunkSize > 0 and any contextSize, `SplitIntoChunks` produces
`⌈N/chunkSize⌉` chunks; chunk `k` (in order, carrying index `k`) targets the
segment slice `[k·chunkSize, min((k+1)·chunkSize, N))`, its `Before` context
is the up-to-contextSize segments immediately preceding that slice (clamped
at 0) and its `After` context the up-to-contextSize segments immediately
following it (clamped at N) — the `chunkAt` normal form; and the
concatenation of all `Target` slices is the input list, so the target
lengths sum to N and context windows neither duplicate nor skip positions
relative to their chunk's target. -/
theorem splitIntoChunks_spec (segments : List Segment)
    (chunkSize contextSize : Nat) (hcs : 0 < chunkSize) :
    (SplitIntoChunks segments chunkSize contextSize).length =
        numChunks segments.length chunkSize
    ∧ (∀ k : Nat, (SplitIntoChunks segments chunkSize contextSize)[k]? =
        if k < numChunks segments.length chunkSize then
          some (chunkAt segments chunkSize contextSize (k * chunkSize) k)
        else none)
    ∧ ((SplitIntoChunks segments chunkSize contextSize).map Chunk.Target).flatten
        = segments
    ∧ (((SplitIntoChunks segments chunkSize contextSize).map Chunk.Target).map
        List.length).sum = segments.length := by
  rw [SplitIntoChunks_eq segments chunkSize contextSize hcs]
  refine ⟨by simp, fun k => ?_, ?_, ?_⟩
  · by_cases hk : k < numChunks segments.length chunkSize
    · simp [List.getElem?_map, List.getElem?_range, hk]
    · have h0 : (List.range (numChunks segments.length chunkSize))[k]? = none :=
        List.getElem?_eq_none (by simp only [List.length_range]; omega)
      rw [List.getElem?_map, h0, if_neg hk]
      rfl
  · rw [List.map_map]
    have hflat := flatten_take_chunks chunkSize
      (numChunks segments.length chunkSize) segments
      (le_numChunks_mul segments.length chunkSize hcs)
    calc ((List.range (numChunks segments.length chunkSize)).map
            (Chunk.Target ∘ fun k => chunkAt segments chunkSize contextSize
              (k * chunkSize) k)).flatten
        = ((List.range (numChunks segments.length chunkSize)).map
            (fun k => (segments.drop (k * chunkSize)).take chunkSize)).flatten := by
          rfl
      _ = segments := hflat
  · rw [List.map_map, List.map_map]
    have hflat := flatten_take_chunks chunkSize
      (numChunks segments.length chunkSize) segments
      (le_numChunks_mul segments.length chunkSize hcs)
    have hlen : (((List.range (numChunks segments.length chunkSize)).map
        (fun k => (segments.drop (k * chunkSize)).take chunkSize)).flatten).length
        = segments.length := by rw [hflat]
    rw [List.length_flatten, List.map_map] at hlen
    calc ((List.range (numChunks segments.length chunkSize)).map
            (List.length ∘ Chunk.Target ∘ fun k =>
              chunkAt segments chunkSize contextSize (k * chunkSize) k)).sum
        = ((List.range (numChunks segments.length chunkSize)).map
            (List.length ∘ fun k =>
              (segments.drop (k * chunkSize)).take chunkSize)).sum := by rfl
      _ = segments.length := hlen

/-- Witness for C1 at a concrete input: 5 segments, chunkSize 2,
contextSize 1. -/
theorem splitIntoChunks_spec_witness :
    ((SplitIntoChunks
        ((List.range 5).map fun i =>
          { ID := (i : Int), StartTime := "", EndTime := "", Lines := [] })
        2 1).map Chunk.Target).flatten =
      (List.range 5).map fun i =>
        { ID := (i : Int), StartTime := "", EndTime := "", Lines := [] } :=
  (splitIntoChunks_spec _ 2 1 (by decide)).2.2.1

/-! ### C4: the retry decision -/

/-- C4: with the engine's `maxAttempts = 3` and any jitter draw in
[0, 1 s), `retryDecision` retries exactly when the error is present with a
retryable kind (`Transient`, `RateLimit` or `Validation`), the attempt
number is below 3, and the error does not signal a fired cancellation
context (`Auth`/`BadRequest` kinds, kindless errors and `nil` never
retry); and the returned delay is 1 s · 2^(attempt−1), doubled once more
for `RateLimit`, clamped at 20 s, plus the jitter. -/
theorem retryDecision_spec (err : Option GoError) (attempt : Nat)
    (jitterNs : Int) (hj : 0 ≤ jitterNs ∧ jitterNs < 1000000000)
    (ha : 1 ≤ attempt) :
    ((retryDecision err attempt 3 jitterNs).1 = true ↔
      ((∃ e, err = some e ∧
        (e.appKind? = some .transient ∨ e.appKind? = some .rateLimit ∨
          e.appKind? = some .validation) ∧
        e.ctxCanceled = false ∧ e.ctxDeadline = false) ∧ attempt < 3))
    ∧ (∀ e, err = some e → (retryDecision err attempt 3 jitterNs).1 = true →
        (retryDecision err attempt 3 jitterNs).2 =
          min ((1000000000 : Int) * 2 ^ (attempt - 1) *
            (if IsRateLimit e then 2 else 1)) 20000000000 + jitterNs) := by
  cases err with
  | none => simp [retryDecision]
  | some e =>
    obtain ⟨k, c, d⟩ := e
    by_cases h3 : attempt ≥ 3
    · constructor
      · simp only [retryDecision, if_pos h3]
        simp
        omega
      · intro e' he' hret
        cases he'
        simp only [retryDecision, if_pos h3] at hret
        exact absurd hret (by simp)
    · constructor
      · simp only [retryDecision, if_neg h3]
        cases c <;> cases d <;>
          rcases k with _ | (_ | _ | _ | _ | _) <;>
            simp [IsRetryable] <;> omega
      · intro e' he' hret
        cases he'
        simp only [retryDecision, if_neg h3] at hret ⊢
        cases c <;> cases d <;>
          rcases k with _ | (_ | _ | _ | _ | _) <;>
            simp_all [IsRetryable, IsRateLimit, min_def] <;> split <;> omega

/-- Witness for C4 at a concrete input: a rate-limit error on attempt 2
with a 123 ns jitter draw. -/
theorem retryDecision_spec_witness :
    (retryDecision (some ⟨some .rateLimit, false, false⟩) 2 3 123).2 =
      min ((1000000000 : Int) * 2 ^ (2 - 1) *
        (if IsRateLimit ⟨some .rateLimit, false, false⟩ then 2 else 1))
        20000000000 + 123 :=
  (retryDecision_spec (some ⟨some .rateLimit, false, false⟩) 2 123
      (by decide) (by decide)).2
    ⟨some .rateLimit, false, false⟩ rfl (by decide)

/-! ### C5: recovery-log validation -/

/-- C5 counterexample: `SessionLog.Validate` accepts a log whose
`InputPath` ascends to the parent directory (`../x.srt`), so accepted logs
need not have a non-traversing input path. -/
theorem sessionLogValidate_counterexample :
    SessionLog.Validate
      { LogVersion := 4, InputPath := "../x.srt", OutputPath := "out.srt",
        InputHash := "sha256:ab", SegmentsChecksum := "sha256:cd",
        Model := "m", NamesPath := "", ChunkSize := 1, ContextSize := 0,
        Concurrency := 1, NoPreprocess := false, NoPostprocess := false,
        NoLangPreprocess := false, NoLangPostprocess := false,
        NoPromptCPL := false, SourceLang := "ja", TargetLang := "ko",
        FailedChunks := [0], TotalChunks := 1, Status := "Failure",
        StatusReason := "" } = .ok ()
    ∧ goStartsWith (filepathClean "../x.srt") ".." = true := by
  constructor
  · rfl
  · rfl

/-- C5 amended: every log accepted by `SessionLog.Validate` has a
non-empty relative `InputPath` and a non-empty relative `OutputPath` that
does not ascend to a parent directory after cleaning; the traversal check
is applied to `OutputPath` only, not to `InputPath` (see the
counterexample). -/
theorem ite_error_ok {c : Prop} [Decidable c] {e : String}
    {rest : Except String Unit}
    (h : (if c then Except.error e else rest) = .ok ()) :
    ¬c ∧ rest = .ok () := by
  by_cases hc : c
  · rw [if_pos hc] at h
    exact absurd h (by simp)
  · rw [if_neg hc] at h
    exact ⟨hc, h⟩

theorem sessionLogValidate_spec (log : SessionLog)
    (h : log.Validate = .ok ()) :
    log.InputPath ≠ "" ∧ filepathIsAbs log.InputPath = false ∧
    log.OutputPath ≠ "" ∧ filepathIsAbs log.OutputPath = false ∧
    goStartsWith (filepathClean log.OutputPath) ".." = false := by
  simp only [SessionLog.Validate] at h
  obtain ⟨-, h⟩ := ite_error_ok h
  obtain ⟨h1, h⟩ := ite_error_ok h
  obtain ⟨h2, h⟩ := ite_error_ok h
  obtain ⟨h3, h⟩ := ite_error_ok h
  obtain ⟨h4, h⟩ := ite_error_ok h
  obtain ⟨h5, -⟩ := ite_error_ok h
  exact ⟨h1, by simpa using h2, h3, by simpa using h4, by simpa using h5⟩

/-- Witness for C5 (amended) at a concrete accepted log. -/
theorem sessionLogValidate_spec_witness :
    goStartsWith
      (filepathClean
        ({ LogVersion := 4, InputPath := "in.srt", OutputPath := "out.srt",
           InputHash := "sha256:ab", SegmentsChecksum := "sha256:cd",
           Model := "m", NamesPath := "", ChunkSize := 1, ContextSize := 0,
           Concurrency := 1, NoPreprocess := false, NoPostprocess := false,
           NoLangPreprocess := false, NoLangPostprocess := false,
           NoPromptCPL := false, SourceLang := "ja", TargetLang := "ko",
           FailedChunks := [0], TotalChunks := 1, Status := "Failure",
           StatusReason := "" } : SessionLog).OutputPath) ".." = false :=
  (sessionLogValidate_spec _ (by rfl)).2.2.2.2

/-! ### C6: the VTT same-timestamp merge and the translation pipeline -/

/-- C6 (code bug): on the specification's own VTT scenario (three cues, the
first two sharing timestamps), the path-aware preprocessing used by the
repair flow merges the consecutive same-timestamp cues into
`{1,t1,t2,["a","b"]}, {2,t3,t4,["c"]}` exactly as the claim describes, but
the preprocessing step the translation pipeline actually runs
(`RunTranslation` calls `PreprocessWithMappingOptions`, which ignores the
source path) leaves the three cues unmerged. -/
theorem vttMerge_divergence :
    (PreprocessForPathWithMappingOptions (fun _ => true)
        [⟨1, "t1", "t2", ["a"]⟩, ⟨2, "t1", "t2", ["b"]⟩, ⟨3, "t3", "t4", ["c"]⟩]
        "en" "sample.vtt" false).1 =
      [⟨1, "t1", "t2", ["a", "b"]⟩, ⟨2, "t3", "t4", ["c"]⟩]
    ∧ (runTranslationPreprocess (fun _ => true)
        [⟨1, "t1", "t2", ["a"]⟩, ⟨2, "t1", "t2", ["b"]⟩, ⟨3, "t3", "t4", ["c"]⟩]
        "en" true).1 =
      [⟨1, "t1", "t2", ["a"]⟩, ⟨2, "t1", "t2", ["b"]⟩, ⟨3, "t3", "t4", ["c"]⟩] := by
  constructor
  · rfl
  · rfl

/-! ### C3: merge validation -/

theorem insertTranslation_ok {expectedIDs : List Int}
    {acc : List (Int × TranslatedSegment)} {tr : TranslatedSegment}
    {acc2 : List (Int × TranslatedSegment)}
    (h : insertTranslation expectedIDs acc tr = .ok acc2) :
    ¬ (acc.map Prod.fst).contains tr.ID ∧ expectedIDs.contains tr.ID ∧
    acc2 = acc ++ [(tr.ID, tr)] := by
  unfold insertTranslation at h
  split_ifs at h with h1 h2
  exact ⟨h1, by simpa using h2, by simpa using h.symm⟩

theorem buildTransMap_ok {expectedIDs : List Int} :
    ∀ {trs : List TranslatedSegment} {acc tm : List (Int × TranslatedSegment)},
    buildTransMap expectedIDs acc trs = .ok tm →
    tm = acc ++ trs.map (fun tr => (tr.ID, tr)) ∧
    ((acc.map Prod.fst).Nodup →
      (acc.map Prod.fst ++ trs.map TranslatedSegment.ID).Nodup) ∧
    (∀ tr ∈ trs, tr.ID ∈ expectedIDs) := by
  intro trs
  induction trs with
  | nil =>
    intro acc tm h
    simp only [buildTransMap] at h
    cases h
    simp
  | cons tr rest ih =>
    intro acc tm h
    rcases hins : insertTranslation expectedIDs acc tr with e | acc2
    · simp only [buildTransMap, hins] at h
      exact absurd h (by simp)
    · simp only [buildTransMap, hins] at h
      obtain ⟨hdup, hexp, hacc2⟩ := insertTranslation_ok hins
      obtain ⟨htm, hnodup, hmem⟩ := ih h
      subst hacc2
      refine ⟨by simpa using htm, ?_, ?_⟩
      · intro hn
        have hpre : ((acc ++ [(tr.ID, tr)]).map Prod.fst).Nodup := by
          rw [List.map_append]
          simp only [List.map_cons, List.map_nil]
          rw [List.nodup_append]
          refine ⟨hn, List.nodup_singleton _, ?_⟩
          intro a ha hb
          simp only [List.mem_singleton] at hb
          subst hb
          exact hdup (by simpa [List.elem_iff] using ha)
        have h2 := hnodup hpre
        rw [List.map_append] at h2
        simpa using h2
      · intro t ht
        rcases List.mem_cons.mp ht with hEq | hmem2
        · subst hEq
          simpa [List.elem_iff] using hexp
        · exact hmem t hmem2

theorem buildTransMap_ok_of {expectedIDs : List Int} :
    ∀ {trs : List TranslatedSegment} {acc : List (Int × TranslatedSegment)},
    (acc.map Prod.fst ++ trs.map TranslatedSegment.ID).Nodup →
    (∀ tr ∈ trs, tr.ID ∈ expectedIDs) →
    buildTransMap expectedIDs acc trs =
      .ok (acc ++ trs.map (fun tr => (tr.ID, tr))) := by
  intro trs
  induction trs with
  | nil =>
    intro acc _ _
    simp [buildTransMap]
  | cons tr rest ih =>
    intro acc hnodup hmem
    have hnotin : tr.ID ∉ acc.map Prod.fst := by
      intro hin
      rw [List.nodup_append] at hnodup
      exact hnodup.2.2 hin (by simp)
    have hins : insertTranslation expectedIDs acc tr =
        .ok (acc ++ [(tr.ID, tr)]) := by
      unfold insertTranslation
      rw [if_neg (by simpa [List.elem_iff] using hnotin),
        if_neg (by simp [List.elem_iff, hmem tr (by simp)])]
    have hre : ((acc ++ [(tr.ID, tr)]).map Prod.fst ++
        rest.map TranslatedSegment.ID).Nodup := by
      rw [List.map_append]
      simp only [List.map_cons, List.map_nil]
      rw [List.append_assoc]
      simpa using hnodup
    have hrec := ih hre (fun t ht => hmem t (by simp [ht]))
    simp only [buildTransMap, hins, hrec]
    simp

theorem buildMerged_ok_forall {tm : List (Int × TranslatedSegment)} :
    ∀ {l : List Segment} {res : List Segment},
    buildMerged tm l = .ok res →
    res.length = l.length ∧
    ∀ orig ∈ l, ∃ i0 t0, tm.find? (fun p => p.fst = orig.ID) = some (i0, t0) ∧
      ¬ (t0.Line1 = "" ∧ t0.Line2 = "" ∧ orig.Lines ≠ []) := by
  intro l
  induction l with
  | nil =>
    intro res h
    simp only [buildMerged] at h
    cases h
    simp
  | cons orig rest ih =>
    intro res h
    rcases hf : tm.find? (fun p => p.fst = orig.ID) with _ | ⟨i0, t0⟩
    · simp only [buildMerged, hf] at h
      exact absurd h (by simp)
    · simp only [buildMerged, hf] at h
      by_cases hc : t0.Line1 = "" ∧ t0.Line2 = "" ∧ orig.Lines ≠ []
      · rw [if_pos hc] at h
        cases h
      · rw [if_neg hc] at h
        rcases hrec : buildMerged tm rest with e | others <;> rw [hrec] at h
        · cases h
        · cases h
          obtain ⟨hlen, hall⟩ := ih hrec
          refine ⟨by simp [hlen], ?_⟩
          intro o ho
          rcases List.mem_cons.mp ho with hEq | hm
          · subst hEq
            exact ⟨i0, t0, hf, hc⟩
          · exact hall o hm

theorem buildMerged_ok_of {tm : List (Int × TranslatedSegment)} :
    ∀ {l : List Segment},
    (∀ orig ∈ l, ∃ i0 t0, tm.find? (fun p => p.fst = orig.ID) = some (i0, t0) ∧
      ¬ (t0.Line1 = "" ∧ t0.Line2 = "" ∧ orig.Lines ≠ [])) →
    ∃ res, buildMerged tm l = .ok res := by
  intro l
  induction l with
  | nil =>
    intro _
    exact ⟨[], rfl⟩
  | cons orig rest ih =>
    intro hall
    obtain ⟨i0, t0, hf, hc⟩ := hall orig (by simp)
    obtain ⟨others, hrec⟩ := ih (fun o ho => hall o (by simp [ho]))
    refine ⟨{ ID := orig.ID, StartTime := orig.StartTime,
              EndTime := orig.EndTime,
              Lines := normalizeLines [t0.Line1, t0.Line2] } :: others, ?_⟩
    simp only [buildMerged, hf, if_neg hc, hrec]

theorem ids_cover {expected ids : List Int} (hn : ids.Nodup)
    (hsub : ∀ a ∈ ids, a ∈ expected) (hlen : expected.length ≤ ids.length) :
    ∀ a ∈ expected, a ∈ ids := by
  intro a ha
  have h1 : ids.toFinset ⊆ expected.toFinset := fun x hx =>
    List.mem_toFinset.mpr (hsub x (List.mem_toFinset.mp hx))
  have h2 : ids.toFinset.card = ids.length := List.toFinset_card_of_nodup hn
  have h3 : expected.toFinset.card ≤ expected.length :=
    List.toFinset_card_le expected
  have h4 : ids.toFinset = expected.toFinset :=
    Finset.eq_of_subset_of_card_le h1 (by omega)
  exact List.mem_toFinset.mp (h4 ▸ List.mem_toFinset.mpr ha)

theorem mergeResults_ok_not_rejects {original : List Segment}
    {resp : ResponseData} {res : List Segment}
    (h : mergeResults original resp = .ok res) :
    ¬ mergeRejects original resp := by
  rcases hb : buildTransMap (original.map Segment.ID) [] resp.Translations
    with e | tm
  · simp only [mergeResults, hb] at h
    exact absurd h (by simp)
  · simp only [mergeResults, hb] at h
    obtain ⟨htm, hnodup0, hmem⟩ := buildTransMap_ok hb
    simp only [List.map_nil, List.nil_append] at htm hnodup0
    have hnodup : (resp.Translations.map TranslatedSegment.ID).Nodup :=
      hnodup0 List.nodup_nil
    by_cases hlen : tm.length ≠ original.length
    · rw [if_pos hlen] at h
      exact absurd h (by simp)
    · rw [if_neg hlen] at h
      obtain ⟨hreslen, hall⟩ := buildMerged_ok_forall h
      intro hr
      rcases hr with hA | hB | hC | hD
      · exact hA hnodup
      · obtain ⟨tr, htr, hnotin⟩ := hB
        exact hnotin (hmem tr htr)
      · apply hC
        rw [List.Nodup.dedup hnodup, List.length_map]
        have : tm.length = resp.Translations.length := by
          rw [htm, List.length_map]
        omega
      · obtain ⟨orig, ho, tr, htr, hid, h1, h2, h3⟩ := hD
        obtain ⟨i0, t0, hf, hc⟩ := hall orig ho
        have hi0 : i0 = orig.ID := by
          have := List.find?_some hf
          simpa using this
        have hmem0 : (i0, t0) ∈ tm := List.mem_of_find?_eq_some hf
        rw [htm] at hmem0
        obtain ⟨tr2, htr2, heq2⟩ := List.mem_map.mp hmem0
        have ht0 : t0 ∈ resp.Translations ∧ i0 = t0.ID := by
          cases heq2
          exact ⟨htr2, rfl⟩
        have hinj := List.inj_on_of_nodup_map hnodup
        have : tr = t0 := hinj htr ht0.1 (by rw [hid, ← hi0, ht0.2])
        subst this
        exact hc ⟨h1, h2, h3⟩

theorem mergeResults_ok_of_not_rejects {original : List Segment}
    {resp : ResponseData} (h : ¬ mergeRejects original resp) :
    ∃ res, mergeResults original resp = .ok res := by
  unfold mergeRejects at h
  push_neg at h
  obtain ⟨hnd, hhal, hcnt, hemp⟩ := h
  have hidlen : (resp.Translations.map TranslatedSegment.ID).length =
      original.length := by
    rw [← List.Nodup.dedup hnd, hcnt]
  have hfold := @buildTransMap_ok_of (original.map Segment.ID)
    resp.Translations [] (by simpa using hnd) hhal
  simp only [List.nil_append] at hfold
  have hcover := ids_cover hnd
    (fun a ha => by
      obtain ⟨tr, htr, hEq⟩ := List.mem_map.mp ha
      exact hEq ▸ hhal tr htr)
    (by rw [List.length_map, hidlen])
  have hpre : ∀ orig ∈ original, ∃ i0 t0,
      (resp.Translations.map (fun tr => (tr.ID, tr))).find?
        (fun p => p.fst = orig.ID) = some (i0, t0) ∧
      ¬ (t0.Line1 = "" ∧ t0.Line2 = "" ∧ orig.Lines ≠ []) := by
    intro orig ho
    have hin : orig.ID ∈ resp.Translations.map TranslatedSegment.ID :=
      hcover _ (List.mem_map_of_mem _ ho)
    obtain ⟨tr, htr, hid⟩ := List.mem_map.mp hin
    have hsome : ((resp.Translations.map (fun tr => (tr.ID, tr))).find?
        (fun p => p.fst = orig.ID)).isSome := by
      rw [List.find?_isSome]
      exact ⟨(tr.ID, tr), List.mem_map_of_mem _ htr, by simp [hid]⟩
    obtain ⟨⟨i0, t0⟩, hf⟩ := Option.isSome_iff_exists.mp hsome
    have hi0 : i0 = orig.ID := by
      have := List.find?_some hf
      simpa using this
    have hmem0 := List.mem_of_find?_eq_some hf
    obtain ⟨tr2, htr2, heq2⟩ := List.mem_map.mp hmem0
    have ht0 : t0 ∈ resp.Translations ∧ i0 = t0.ID := by
      cases heq2
      exact ⟨htr2, rfl⟩
    refine ⟨i0, t0, hf, ?_⟩
    intro hcond
    exact hcond.2.2
      (hemp orig ho t0 ht0.1 (by rw [← ht0.2, hi0]) hcond.1 hcond.2.1)
  obtain ⟨res, hbm⟩ := buildMerged_ok_of hpre
  refine ⟨res, ?_⟩
  simp only [mergeResults, hfold]
  rw [if_neg (by simp only [List.length_map] at hidlen ⊢; omega)]
  exact hbm

/-- C3: `mergeResults` rejects a model response, and the engine then
classifies the failure as a `Validation`-kind error, exactly when the
response has a duplicated ID, a hallucinated ID, a number of distinct
translations different from the target-segment count, or an empty
translation for a segment whose original lines were non-empty
(`mergeRejects`); and the merge with these checks runs for either setting
of the CPL-validation policy (`attemptOutcome` fails with the
`Validation`-kind error for every configuration whenever `mergeRejects`
holds). -/
theorem mergeResults_spec (original : List Segment) (resp : ResponseData) :
    ((mergeResults original resp).isOk = false ↔ mergeRejects original resp)
    ∧ (∀ cfg gcc, mergeRejects original resp →
        attemptOutcome cfg gcc original resp = .error validationErr)
    ∧ validationErr.appKind? = some Kind.validation := by
  have main : (mergeResults original resp).isOk = false ↔
      mergeRejects original resp := by
    constructor
    · intro hf
      by_contra hnr
      obtain ⟨res, hok⟩ := mergeResults_ok_of_not_rejects hnr
      rw [hok] at hf
      simp [Except.isOk, Except.toBool] at hf
    · intro hr
      rcases hm : mergeResults original resp with e | res
      · rfl
      · exact absurd hr (mergeResults_ok_not_rejects hm)
  refine ⟨main, ?_, rfl⟩
  intro cfg gcc hr
  unfold attemptOutcome
  by_cases hcpl : cfg.validateCPL ∧
      (validateResponse gcc cfg.tgtCPL resp).isOk = false
  · rw [if_pos hcpl]
  · rw [if_neg hcpl]
    have hf := main.mpr hr
    rcases hm : mergeResults original resp with e | res
    · simp only [hm]
    · rw [hm] at hf
      exact absurd hf (by simp [Except.isOk, Except.toBool])

/-- Witness for C3's engine conjunct at a concrete input: a hallucinated
ID makes the attempt fail with the validation error even with CPL
validation off. -/
theorem mergeResults_spec_witness :
    attemptOutcome ⟨1, 0, false, 42⟩ String.length
      [⟨1, "00:00:01,000", "00:00:02,000", ["x"]⟩]
      { Translations := [⟨2, "h", ""⟩], Usage := ⟨0, 0, 0, 0⟩ } =
      .error validationErr :=
  (mergeResults_spec _ _).2.1 ⟨1, 0, false, 42⟩ String.length (by decide)

/-! ### C2 and C10: the translation engine -/

theorem mergeResults_ok_length {original : List Segment} {resp : ResponseData}
    {res : List Segment} (h : mergeResults original resp = .ok res) :
    res.length = original.length := by
  rcases hb : buildTransMap (original.map Segment.ID) [] resp.Translations
    with e | tm
  · simp only [mergeResults, hb] at h
    exact absurd h (by simp)
  · simp only [mergeResults, hb] at h
    by_cases hlen : tm.length ≠ original.length
    · rw [if_pos hlen] at h
      exact absurd h (by simp)
    · rw [if_neg hlen] at h
      exact (buildMerged_ok_forall h).1

theorem attemptOutcome_ok_length {cfg : TranslatorCfg} {gcc : String → Nat}
    {target : List Segment} {resp : ResponseData} {res : List Segment}
    (h : attemptOutcome cfg gcc target resp = .ok res) :
    res.length = target.length := by
  unfold attemptOutcome at h
  split_ifs at h
  rcases hm : mergeResults target resp with e | res2 <;> rw [hm] at h
  · exact absurd h (by simp)
  · cases h
    exact mergeResults_ok_length hm

theorem attemptLoop_some_length {cfg : TranslatorCfg} {gcc : String → Nat}
    {target : List Segment} {oracle : Nat → Except GoError ResponseData} :
    ∀ {fuel attempt : Nat} {res : List Segment},
    attemptLoop cfg gcc target oracle attempt fuel = some res →
    res.length = target.length := by
  intro fuel
  induction fuel with
  | zero =>
    intro attempt res h
    simp only [attemptLoop] at h
    exact absurd h (by simp)
  | succ fuel ih =>
    intro attempt res h
    rw [attemptLoop] at h
    rcases ho : oracle attempt with e | resp <;> rw [ho] at h
    · simp only [] at h
      split_ifs at h
      exact ih h
    · rcases ha : attemptOutcome cfg gcc target resp with e2 | tr <;>
        simp only [ha] at h
      · split_ifs at h
        exact ih h
      · cases h
        exact attemptOutcome_ok_length ha

theorem processChunk_some_length {cfg : TranslatorCfg} {gcc : String → Nat}
    {target : List Segment} {oracle : Nat → Except GoError ResponseData}
    {res : List Segment} (h : processChunk cfg gcc target oracle = some res) :
    res.length = target.length :=
  attemptLoop_some_length h

theorem numChunks_lower (n cs : Nat) (hcs : 0 < cs)
    (h : 0 < numChunks n cs) : (numChunks n cs - 1) * cs < n := by
  have h1 : numChunks n cs ≤ (n + cs - 1) / cs := le_of_eq rfl
  have h2 : numChunks n cs * cs ≤ n + cs - 1 :=
    (Nat.le_div_iff_mul_le hcs).mp h1
  have h3 : 1 * cs ≤ numChunks n cs * cs := Nat.mul_le_mul_right cs h
  rw [Nat.sub_mul]
  omega

theorem flatten_chunks_slice (cs : Nat) (hcs : 0 < cs) :
    ∀ (m n : Nat) (F : Nat → List Segment) (k : Nat),
      k < m → (∀ i, i < m → (F i).length = min cs (n - i * cs)) →
      (m - 1) * cs < n → n ≤ m * cs →
      ((((List.range m).map F).flatten).drop (k * cs)).take cs = F k := by
  intro m
  induction m with
  | zero =>
    intro n F k hk
    omega
  | succ m ih =>
    intro n F k hk hlen hlow hhigh
    rw [List.range_succ_eq_map, List.map_cons, List.map_map, List.flatten_cons]
    rcases k with _ | k
    · simp only [Nat.zero_mul, List.drop_zero]
      by_cases hmin : cs ≤ n
      · have h0 : (F 0).length = cs := by
          have := hlen 0 (by omega)
          simpa [Nat.min_def, hmin] using this
        rw [← h0, List.take_left]
      · have hm0 : m = 0 := by
          by_contra hne
          have h3 : 1 * cs ≤ m * cs := Nat.mul_le_mul_right cs (by omega)
          simp only [Nat.add_sub_cancel] at hlow
          omega
        subst hm0
        simp only [List.range_zero, List.map_nil, List.flatten_nil,
          List.append_nil]
        have h0 : (F 0).length = n := by
          have := hlen 0 (by omega)
          simpa [Nat.min_def, hmin] using this
        exact List.take_of_length_le (by omega)
    · have hm1 : 1 ≤ m := by omega
      have hcsle : cs ≤ m * cs := by
        have := Nat.mul_le_mul_right cs hm1
        simpa using this
      simp only [Nat.add_sub_cancel] at hlow
      have h0 : (F 0).length = cs := by
        have := hlen 0 (by omega)
        have hmin : cs ≤ n := by omega
        simpa [Nat.min_def, hmin] using this
      have hsplit : (k + 1) * cs = (F 0).length + k * cs := by
        rw [h0, Nat.succ_mul]
        omega
      rw [hsplit, List.drop_append]
      have hlow2 : (m - 1) * cs < n - cs := by
        rw [Nat.sub_mul, Nat.one_mul]
        omega
      have hhigh2 : n - cs ≤ m * cs := by
        rw [Nat.succ_mul] at hhigh
        omega
      have hres := ih (n - cs) (F ∘ Nat.succ) k (by omega)
        (fun i hi => by
          have := hlen (i + 1) (by omega)
          simp only [Function.comp_apply]
          rw [this, Nat.succ_mul]
          omega)
        hlow2 hhigh2
      simpa using hres

theorem flatten_length_congr {F G : Nat → List Segment} (m : Nat)
    (h : ∀ i, i < m → (F i).length = (G i).length) :
    (((List.range m).map F).flatten).length =
      (((List.range m).map G).flatten).length := by
  rw [List.length_flatten, List.length_flatten, List.map_map, List.map_map]
  apply congrArg
  apply List.map_congr_left
  intro i hi
  exact h i (List.mem_range.mp hi)

theorem get?_map_range {α : Type} (H : Nat → α) (m i : Nat) (hi : i < m) :
    ((List.range m).map H).get? i = some (H i) := by
  rw [List.get?_eq_getElem?, List.getElem?_map, List.getElem?_range hi]
  rfl

theorem translateEngine_eq (cfg : TranslatorCfg) (gcc : String → Nat)
    (segments : List Segment) (chunkIndices : Option (List Int))
    (oracle : Nat → Nat → Except GoError ResponseData)
    (hcs : 0 < cfg.chunkSize) :
    translateEngine cfg gcc segments chunkIndices oracle =
      ((List.range (numChunks segments.length cfg.chunkSize)).map
        (fun k => chunkAt segments cfg.chunkSize cfg.contextSize
          (k * cfg.chunkSize) k),
       (List.range (numChunks segments.length cfg.chunkSize)).map
        (fun i =>
          if toTranslate chunkIndices (numChunks segments.length cfg.chunkSize) i then
            processChunk cfg gcc
              ((segments.drop (i * cfg.chunkSize)).take cfg.chunkSize) (oracle i)
          else none),
       (List.range (numChunks segments.length cfg.chunkSize)).map
        (fun i =>
          toTranslate chunkIndices (numChunks segments.length cfg.chunkSize) i &&
          (if toTranslate chunkIndices (numChunks segments.length cfg.chunkSize) i then
            processChunk cfg gcc
              ((segments.drop (i * cfg.chunkSize)).take cfg.chunkSize) (oracle i)
          else none).isNone)) := by
  unfold translateEngine
  rw [SplitIntoChunks_eq segments cfg.chunkSize cfg.contextSize hcs]
  simp only [List.length_map, List.length_range]
  have htcs : (List.range (numChunks segments.length cfg.chunkSize)).map
      (fun i =>
        if toTranslate chunkIndices (numChunks segments.length cfg.chunkSize) i then
          processChunk cfg gcc
            ((((List.range (numChunks segments.length cfg.chunkSize)).map
              (fun k => chunkAt segments cfg.chunkSize cfg.contextSize
                (k * cfg.chunkSize) k)).get? i).elim [] Chunk.Target)
            (oracle i)
        else none) =
      (List.range (numChunks segments.length cfg.chunkSize)).map
      (fun i =>
        if toTranslate chunkIndices (numChunks segments.length cfg.chunkSize) i then
          processChunk cfg gcc
            ((segments.drop (i * cfg.chunkSize)).take cfg.chunkSize) (oracle i)
        else none) := by
    apply List.map_congr_left
    intro i hi
    rw [get?_map_range _ _ _ (List.mem_range.mp hi)]
    rfl
  rw [htcs]
  refine congrArg (Prod.mk _) (congrArg (Prod.mk _) ?_)
  apply List.map_congr_left
  intro i hi
  rw [get?_map_range _ _ _ (List.mem_range.mp hi)]
  rfl

theorem TranslateSRT_eq (cfg : TranslatorCfg) (gcc : String → Nat)
    (segments : List Segment)
    (oracle : Nat → Nat → Except GoError ResponseData)
    (hcs : 0 < cfg.chunkSize) :
    TranslateSRT cfg gcc segments oracle =
      (((List.range (numChunks segments.length cfg.chunkSize)).map fun k =>
          (processChunk cfg gcc
            ((segments.drop (k * cfg.chunkSize)).take cfg.chunkSize)
            (oracle k)).getD
            ((segments.drop (k * cfg.chunkSize)).take cfg.chunkSize)).flatten,
       (List.range (numChunks segments.length cfg.chunkSize)).filter fun k =>
          (processChunk cfg gcc
            ((segments.drop (k * cfg.chunkSize)).take cfg.chunkSize)
            (oracle k)).isNone) := by
  unfold TranslateSRT
  rw [translateEngine_eq cfg gcc segments none oracle hcs]
  simp only [List.zipWith_map, List.zipWith_same, List.length_map,
    List.length_range]
  refine congrArg₂ Prod.mk ?_ ?_
  · apply congrArg List.flatten
    apply List.map_congr_left
    intro a ha
    have hi := List.mem_range.mp ha
    rw [if_pos (show toTranslate none (numChunks segments.length cfg.chunkSize) a
        = true by simp [toTranslate, hi])]
    rfl
  · apply List.filter_congr
    intro i hi0
    have hi := List.mem_range.mp hi0
    rw [get?_map_range _ _ _ hi]
    simp [toTranslate, hi]

/-- C2: `TranslateSRT` returns a list of the same length as its input;
its failed-chunk list is exactly the set of chunk indices whose processing
produced no successful attempt (`processChunk … = none`); and at every
failed index the output carries the original (untranslated) target slice
of the input unchanged. -/
theorem translateSRT_spec (cfg : TranslatorCfg) (gcc : String → Nat)
    (segments : List Segment)
    (oracle : Nat → Nat → Except GoError ResponseData)
    (hcs : 0 < cfg.chunkSize) :
    ((TranslateSRT cfg gcc segments oracle).1).length = segments.length
    ∧ (TranslateSRT cfg gcc segments oracle).2 =
        (List.range (numChunks segments.length cfg.chunkSize)).filter (fun k =>
          (processChunk cfg gcc
            ((segments.drop (k * cfg.chunkSize)).take cfg.chunkSize)
            (oracle k)).isNone)
    ∧ ∀ k ∈ (TranslateSRT cfg gcc segments oracle).2,
        (((TranslateSRT cfg gcc segments oracle).1).drop
          (k * cfg.chunkSize)).take cfg.chunkSize =
          (segments.drop (k * cfg.chunkSize)).take cfg.chunkSize := by
  rw [TranslateSRT_eq cfg gcc segments oracle hcs]
  dsimp only
  have hTlen : ∀ i,
      ((segments.drop (i * cfg.chunkSize)).take cfg.chunkSize).length =
        min cfg.chunkSize (segments.length - i * cfg.chunkSize) := by
    intro i
    simp [List.length_take, List.length_drop]
  have hFlen : ∀ i,
      ((processChunk cfg gcc
          ((segments.drop (i * cfg.chunkSize)).take cfg.chunkSize)
          (oracle i)).getD
        ((segments.drop (i * cfg.chunkSize)).take cfg.chunkSize)).length =
      ((segments.drop (i * cfg.chunkSize)).take cfg.chunkSize).length := by
    intro i
    rcases hp : processChunk cfg gcc
        ((segments.drop (i * cfg.chunkSize)).take cfg.chunkSize) (oracle i)
      with _ | res
    · rfl
    · simpa using processChunk_some_length hp
  refine ⟨?_, rfl, ?_⟩
  · rw [flatten_length_congr (numChunks segments.length cfg.chunkSize)
      (fun i _ => hFlen i)]
    rw [flatten_take_chunks cfg.chunkSize (numChunks segments.length cfg.chunkSize)
      segments (le_numChunks_mul segments.length cfg.chunkSize hcs)]
  · intro k hk
    rw [List.mem_filter] at hk
    obtain ⟨hkr, hknone⟩ := hk
    have hkm := List.mem_range.mp hkr
    have hslice := flatten_chunks_slice cfg.chunkSize hcs
      (numChunks segments.length cfg.chunkSize) segments.length
      (fun i =>
        (processChunk cfg gcc
          ((segments.drop (i * cfg.chunkSize)).take cfg.chunkSize)
          (oracle i)).getD
        ((segments.drop (i * cfg.chunkSize)).take cfg.chunkSize))
      k hkm
      (fun i _ => by rw [hFlen i, hTlen i])
      (numChunks_lower segments.length cfg.chunkSize hcs (by omega))
      (le_numChunks_mul segments.length cfg.chunkSize hcs)
    rw [hslice]
    simp only [Option.isNone_iff_eq_none.mp hknone, Option.getD_none]

/-- Witness for C2 at a concrete input: two segments, chunk size 1, an
oracle that always reports a transient error, so both chunks fail and the
output is the unchanged input. -/
theorem translateSRT_spec_witness :
    ((TranslateSRT ⟨1, 0, false, 42⟩ String.length
        [⟨1, "00:00:01,000", "00:00:02,000", ["a"]⟩,
         ⟨2, "00:00:03,000", "00:00:04,000", ["b"]⟩]
        (fun _ _ => .error ⟨some .transient, false, false⟩)).1).length = 2 :=
  (translateSRT_spec ⟨1, 0, false, 42⟩ String.length
      [⟨1, "00:00:01,000", "00:00:02,000", ["a"]⟩,
       ⟨2, "00:00:03,000", "00:00:04,000", ["b"]⟩]
      (fun _ _ => .error ⟨some .transient, false, false⟩) (by decide)).1

theorem toTranslate_filter (l : List Int) (m i : Nat) :
    toTranslate (some (l.filter fun x =>
        decide (0 ≤ x) && decide (x < (m : Int)))) m i =
      toTranslate (some l) m i := by
  have hc : ∀ (L : List Int) (a : Int), L.contains a = decide (a ∈ L) :=
    fun L a => List.elem_eq_mem a L
  simp only [toTranslate]
  by_cases hi : i < m
  · rw [hc, hc, decide_eq_true hi, Bool.true_and, Bool.true_and,
      decide_eq_decide, List.mem_filter]
    constructor
    · exact fun h => h.1
    · intro h
      refine ⟨h, ?_⟩
      simp only [Bool.and_eq_true, decide_eq_true_eq]
      exact ⟨Int.ofNat_nonneg i, by exact_mod_cast hi⟩
  · simp [hi]

theorem overwriteAt_length (b : List Segment) (s : Nat) (r : List Segment) :
    (overwriteAt b s r).length = b.length := by
  simp [overwriteAt]

theorem foldl_overwrite_length (G : Nat → Option (List Segment))
    (st : Nat → Nat) :
    ∀ (L : List Nat) (acc : List Segment),
      (L.foldl (fun acc i =>
        match G i with
        | none => acc
        | some translated => overwriteAt acc (st i) translated) acc).length =
      acc.length := by
  intro L
  induction L with
  | nil => intro acc; rfl
  | cons hd tl ih =>
    intro acc
    rw [List.foldl_cons]
    rcases hG : G hd with _ | t
    · exact ih acc
    · rw [ih]
      exact overwriteAt_length acc (st hd) t

theorem TranslateChunks_eq (cfg : TranslatorCfg) (gcc : String → Nat)
    (segments : List Segment) (idxs : List Int)
    (oracle : Nat → Nat → Except GoError ResponseData)
    (hcs : 0 < cfg.chunkSize) :
    TranslateChunks cfg gcc segments idxs oracle =
      ((List.range (numChunks segments.length cfg.chunkSize)).foldl
        (fun acc i =>
          match (if toTranslate (some idxs)
              (numChunks segments.length cfg.chunkSize) i then
              processChunk cfg gcc
                ((segments.drop (i * cfg.chunkSize)).take cfg.chunkSize)
                (oracle i)
            else none) with
          | none => acc
          | some translated => overwriteAt acc (i * cfg.chunkSize) translated)
        segments,
       (List.range (numChunks segments.length cfg.chunkSize)).filter fun i =>
         toTranslate (some idxs) (numChunks segments.length cfg.chunkSize) i &&
           (if toTranslate (some idxs)
               (numChunks segments.length cfg.chunkSize) i then
              processChunk cfg gcc
                ((segments.drop (i * cfg.chunkSize)).take cfg.chunkSize)
                (oracle i)
            else none).isNone) := by
  unfold TranslateChunks
  rw [translateEngine_eq cfg gcc segments (some idxs) oracle hcs]
  simp only [List.length_map, List.length_range]
  refine congrArg₂ Prod.mk ?_ ?_
  · apply List.foldl_ext
    intro acc a ha
    rw [get?_map_range _ _ _ (List.mem_range.mp ha)]
    rfl
  · apply List.filter_congr
    intro i hi
    rw [get?_map_range _ _ _ (List.mem_range.mp hi)]
    rfl

/-- C10: `TranslateChunks` silently ignores requested chunk indices outside
`[0, numChunks)`: the result is unchanged if the request list is filtered to
the in-range indices (so an out-of-range index is never dispatched and never
overwrites anything), the output always has the input's length, and every
returned failed index is an in-range index that was actually requested. -/
theorem translateChunks_spec (cfg : TranslatorCfg) (gcc : String → Nat)
    (segments : List Segment) (idxs : List Int)
    (oracle : Nat → Nat → Except GoError ResponseData)
    (hcs : 0 < cfg.chunkSize) :
    TranslateChunks cfg gcc segments idxs oracle =
      TranslateChunks cfg gcc segments
        (idxs.filter fun x =>
          decide (0 ≤ x) &&
            decide (x < (numChunks segments.length cfg.chunkSize : Int)))
        oracle
    ∧ ((TranslateChunks cfg gcc segments idxs oracle).1).length =
        segments.length
    ∧ ∀ k ∈ (TranslateChunks cfg gcc segments idxs oracle).2,
        k < numChunks segments.length cfg.chunkSize ∧ (k : Int) ∈ idxs := by
  refine ⟨?_, ?_, ?_⟩
  · rw [TranslateChunks_eq cfg gcc segments idxs oracle hcs,
      TranslateChunks_eq cfg gcc segments _ oracle hcs]
    refine congrArg₂ Prod.mk ?_ ?_
    · apply List.foldl_ext
      intro acc a ha
      rw [toTranslate_filter]
    · apply List.filter_congr
      intro i hi
      rw [toTranslate_filter]
  · rw [TranslateChunks_eq cfg gcc segments idxs oracle hcs]
    exact foldl_overwrite_length
      (fun i => if toTranslate (some idxs)
          (numChunks segments.length cfg.chunkSize) i then
          processChunk cfg gcc
            ((segments.drop (i * cfg.chunkSize)).take cfg.chunkSize)
            (oracle i)
        else none)
      (fun i => i * cfg.chunkSize)
      (List.range (numChunks segments.length cfg.chunkSize)) segments
  · intro k hk
    rw [TranslateChunks_eq cfg gcc segments idxs oracle hcs] at hk
    rw [List.mem_filter] at hk
    obtain ⟨hkr, hp⟩ := hk
    have hkm := List.mem_range.mp hkr
    refine ⟨hkm, ?_⟩
    rw [Bool.and_eq_true] at hp
    have ht := hp.1
    simp only [toTranslate, Bool.and_eq_true, decide_eq_true_eq] at ht
    exact List.elem_iff.mp ht.2

/-- Witness for C10 at a concrete input: two segments, chunk size 1, the
requested indices include an out-of-range 5 and a negative -1, yet the
output has the input's length. -/
theorem translateChunks_spec_witness :
    ((TranslateChunks ⟨1, 0, false, 42⟩ String.length
        [⟨1, "00:00:01,000", "00:00:02,000", ["a"]⟩,
         ⟨2, "00:00:03,000", "00:00:04,000", ["b"]⟩]
        [0, 5, -1]
        (fun _ _ => .error ⟨some .transient, false, false⟩)).1).length = 2 :=
  (translateChunks_spec ⟨1, 0, false, 42⟩ String.length
      [⟨1, "00:00:01,000", "00:00:02,000", ["a"]⟩,
       ⟨2, "00:00:03,000", "00:00:04,000", ["b"]⟩]
      [0, 5, -1]
      (fun _ _ => .error ⟨some .transient, false, false⟩) (by decide)).2.1

theorem correctTimingStep1_eq (gcc : String → Nat) (cps : Int)
    (seg : Segment) :
    correctTimingStep1 gcc cps seg =
      match ParseTimestamp seg.StartTime, ParseTimestamp seg.EndTime with
      | some start, some endT =>
        { seg with EndTime := FormatTimestamp (wrap64 (start +
            f64toInt64 (f64mul
              (f64max (f64max (f64sub (goSeconds endT) (goSeconds start))
                  c08)
                (f64div (f64ofInt (((seg.Lines.map gcc).sum : Nat) : Int))
                  (f64ofInt cps)))
              (f64ofInt 1000000000)))) }
      | _, _ => seg := by
  rcases hs : ParseTimestamp seg.StartTime with _ | start <;>
    rcases he : ParseTimestamp seg.EndTime with _ | endT <;>
      simp only [correctTimingStep1, hs, he]
  rfl

theorem overlapPair_eq (x : Segment) (s : String) :
    overlapPair x s =
      match ParseTimestamp x.EndTime, ParseTimestamp s,
          ParseTimestamp x.StartTime with
      | some currEnd, some nextStart, some currStart =>
        if currEnd > wrap64 (nextStart - 5000000) ∧
            wrap64 (nextStart - 5000000) ≥ currStart then
          { x with EndTime := FormatTimestamp (wrap64 (nextStart - 5000000)) }
        else x
      | _, _, _ => x := by
  rcases he : ParseTimestamp x.EndTime with _ | currEnd <;>
    rcases hn : ParseTimestamp s with _ | nextStart <;>
      rcases hs : ParseTimestamp x.StartTime with _ | currStart <;>
        simp only [overlapPair, he, hn, hs, ite_self]
  by_cases h1 : currEnd > wrap64 (nextStart - 5000000)
  · rw [if_pos h1]
    by_cases h2 : wrap64 (nextStart - 5000000) ≥ currStart
    · rw [if_pos h2, if_pos ⟨h1, h2⟩]
    · rw [if_neg h2, if_neg (fun hc => h2 hc.2)]
  · rw [if_neg h1, if_neg (fun hc => h1 hc.1)]

theorem overlapFix_eq_map : ∀ (L : List Segment),
    overlapFix L = (List.range L.length).map fun i =>
      match L.get? i with
      | none => { ID := 0, StartTime := "", EndTime := "", Lines := [] }
      | some x =>
        match L.get? (i + 1) with
        | none => x
        | some next => overlapPair x next.StartTime
  | [] => rfl
  | [x] => rfl
  | x :: y :: rest => by
    rw [overlapFix, overlapFix_eq_map (y :: rest)]
    conv_rhs => rw [List.length_cons, List.range_succ_eq_map, List.map_cons,
      List.map_map]
    refine congrArg₂ List.cons rfl ?_
    apply List.map_congr_left
    intro i hi
    rfl

theorem pair_match_congr (L : List Segment) (i : Nat) :
    (match L.get? i with
     | none => ({ ID := 0, StartTime := "", EndTime := "", Lines := [] } :
         Segment)
     | some x =>
       match L.get? (i + 1) with
       | none => x
       | some next => overlapPair x next.StartTime) =
    (match L.get? i with
     | none => ({ ID := 0, StartTime := "", EndTime := "", Lines := [] } :
         Segment)
     | some x =>
       match L.get? (i + 1) with
       | none => x
       | some next =>
         match ParseTimestamp x.EndTime, ParseTimestamp next.StartTime,
             ParseTimestamp x.StartTime with
         | some currEnd, some nextStart, some currStart =>
           if currEnd > wrap64 (nextStart - 5000000) ∧
               wrap64 (nextStart - 5000000) ≥ currStart then
             { x with EndTime := FormatTimestamp (wrap64 (nextStart - 5000000)) }
           else x
         | _, _, _ => x) := by
  rcases hx : L.get? i with _ | x
  · rfl
  · rcases hn : L.get? (i + 1) with _ | next
    · rfl
    · exact overlapPair_eq x next.StartTime

/-- C8 (amended): the postprocessor's timing correction computes exactly
the claimed `max(duration, 0.8, totalGraphemes / cps)` formula (with `cps`
falling back to 12 when `targetCPS ≤ 0`) followed by the guarded 5 ms
clamp against the next start, but in the program's binary64 arithmetic
with the truncating `time.Duration` conversion and wrapping `int64`
addition — not in exact real arithmetic; unparseable segments pass through
unchanged. -/
theorem correctTiming_spec (gcc : String → Nat) (segments : List Segment)
    (targetCPS : Int) :
    correctTiming gcc segments targetCPS =
      correctTimingSpecF gcc segments targetCPS := by
  simp only [correctTiming, correctTimingSpecF]
  by_cases h0 : segments.length = 0
  · rw [if_pos h0]
    obtain rfl := List.length_eq_zero.mp h0
    rfl
  · rw [if_neg h0]
    rw [List.map_congr_left (fun seg _ => correctTimingStep1_eq gcc
      (if targetCPS ≤ 0 then 12 else targetCPS) seg)]
    rw [overlapFix_eq_map]
    apply List.map_congr_left
    intro i hi
    exact pair_match_congr _ i

set_option maxRecDepth 8000 in
/-- C8 counterexample against the exact formula: for the valid, parseable
input `00:00:00,000 → 2000000:00:00,123` the exact max-formula leaves the
end time at `,123` (the duration already dominates), but the program's
binary64 pipeline computes `Seconds()` = 7200000000.12300014495849609,
multiplies to 7200000000122999808 ns and truncates, emitting `,122`. -/
theorem correctTiming_counterexample :
    correctTiming String.length
        [⟨1, "00:00:00,000", "2000000:00:00,123", []⟩] 12 ≠
      correctTimingSpec String.length
        [⟨1, "00:00:00,000", "2000000:00:00,123", []⟩] 12 := by
  decide

theorem mapIdx_get?_of_id (l : List Segment) (f : Nat → Segment → Segment)
    (p : Nat) (hf : ∀ x, f p x = x) : (l.mapIdx f).get? p = l.get? p := by
  rw [List.get?_eq_getElem?, List.get?_eq_getElem?, List.getElem?_mapIdx]
  cases h : l[p]? with
  | none => rfl
  | some x => simp [hf]

/-- C7: repair control flow.  When the existing output fails to load or its
segment count mismatches the freshly preprocessed input, the repair without
`forceRepair` aborts with an error (no translation result is produced), and
with `forceRepair` the dispatched chunk list is the full range
`0..totalChunks-1` — independent of the logged failed-chunk list; when the
output loads with a matching count it seeds the results, so every position
not covered by a newly succeeded chunk of this run keeps the existing
output's segment. -/
theorem repair_spec (cfg : TranslatorCfg) (gcc : String → Nat)
    (isLN : Char → Bool) (log : SessionLog) (loadedInput : List Segment)
    (loadedOutput : Except String (List Segment))
    (oracle : Nat → Nat → Except GoError ResponseData)
    (segs : List Segment)
    (hseg : segs = if ¬ log.NoPreprocess then
        PreprocessWithOptions isLN loadedInput log.SourceLang
          (¬ log.NoLangPreprocess)
      else loadedInput) :
    ((match loadedOutput with
      | .error _ => True
      | .ok o => o.length ≠ segs.length) →
      (Repair cfg gcc isLN log loadedInput loadedOutput false oracle =
          .error "existing output could not be reused")
      ∧ (∀ fcs,
          Repair cfg gcc isLN { log with FailedChunks := fcs } loadedInput
            loadedOutput true oracle =
          Repair cfg gcc isLN log loadedInput loadedOutput true oracle)
      ∧ (∃ merged nf,
          Repair cfg gcc isLN log loadedInput loadedOutput true oracle =
            .ok (merged, nf) ∧
          nf = (TranslateChunks cfg gcc segs
            ((List.range (((segs.length : Int) + log.ChunkSize - 1) /
                log.ChunkSize).toNat).map Int.ofNat) oracle).2))
    ∧ (∀ out, loadedOutput = .ok out → out.length = segs.length → ∀ fr,
        ∃ merged nf,
          Repair cfg gcc isLN log loadedInput loadedOutput fr oracle =
            .ok (merged, nf) ∧
          nf = (TranslateChunks cfg gcc segs log.FailedChunks oracle).2 ∧
          ∀ p : Nat,
            ((log.FailedChunks.any fun cIdx =>
                (log.FailedChunks.contains cIdx &&
                  ¬ ((nf.map Int.ofNat).contains cIdx)) ∧
                cIdx * log.ChunkSize ≤ (p : Int) ∧
                (p : Int) < cIdx * log.ChunkSize + log.ChunkSize) = false) →
            merged.get? p = out.get? p) := by
  subst hseg
  cases loadedOutput with
  | error e =>
    exact ⟨fun _ => ⟨rfl, fun fcs => rfl, ⟨_, _, rfl, rfl⟩⟩,
      fun out ho => absurd ho (by simp)⟩
  | ok out =>
    refine ⟨fun hun => ⟨?_, ?_, ?_⟩, ?_⟩
    · have hd : decide (out.length ≠ (if ¬ log.NoPreprocess then
          PreprocessWithOptions isLN loadedInput log.SourceLang
            (¬ log.NoLangPreprocess)
        else loadedInput).length) = true := decide_eq_true hun
      simp [Repair, hd]
      simpa using hun
    · intro fcs
      have hd : decide (out.length ≠ (if ¬ log.NoPreprocess then
          PreprocessWithOptions isLN loadedInput log.SourceLang
            (¬ log.NoLangPreprocess)
        else loadedInput).length) = true := decide_eq_true hun
      simp only [Repair, hd]
      rfl
    · have hd : decide (out.length ≠ (if ¬ log.NoPreprocess then
          PreprocessWithOptions isLN loadedInput log.SourceLang
            (¬ log.NoLangPreprocess)
        else loadedInput).length) = true := decide_eq_true hun
      simp only [Repair, hd]
      exact ⟨_, _, rfl, rfl⟩
    · intro out2 ho hlen fr
      injection ho with h
      subst h
      have hne : ¬ (out.length ≠ (if ¬ log.NoPreprocess then
          PreprocessWithOptions isLN loadedInput log.SourceLang
            (¬ log.NoLangPreprocess)
        else loadedInput).length) := fun h => h hlen
      have hd : decide (out.length ≠ (if ¬ log.NoPreprocess then
          PreprocessWithOptions isLN loadedInput log.SourceLang
            (¬ log.NoLangPreprocess)
        else loadedInput).length) = false := decide_eq_false hne
      simp only [Repair, hd, if_neg hne, Bool.false_eq_true, false_and,
        if_false]
      refine ⟨_, _, rfl, rfl, ?_⟩
      intro p hp
      apply mapIdx_get?_of_id
      intro x
      exact if_neg (fun hc => by rw [hp] at hc; exact absurd hc (by simp))

/-- Witness for C7 at a concrete input: the existing output fails to load
and `forceRepair` is off, so the repair aborts with the reuse error. -/
theorem repair_spec_witness :
    Repair ⟨1, 0, false, 42⟩ String.length (fun _ => false)
        ⟨4, "in.srt", "out.srt", "sha256:a", "sha256:b", "m", "", 1, 0, 1,
          true, false, false, false, false, "ja", "ko", [], 2, "failed", ""⟩
        [] (.error "boom") false
        (fun _ _ => .error ⟨some .transient, false, false⟩) =
      .error "existing output could not be reused" :=
  ((repair_spec ⟨1, 0, false, 42⟩ String.length (fun _ => false)
      ⟨4, "in.srt", "out.srt", "sha256:a", "sha256:b", "m", "", 1, 0, 1,
        true, false, false, false, false, "ja", "ko", [], 2, "failed", ""⟩
      [] (.error "boom")
      (fun _ _ => .error ⟨some .transient, false, false⟩)
      [] (by rfl)).1 trivial).1

theorem step1_id_of_start_none (gcc : String → Nat) (cps : Int)
    (seg : Segment) (hs : ParseTimestamp seg.StartTime = none) :
    correctTimingStep1 gcc cps seg = seg := by
  rw [correctTimingStep1_eq gcc cps seg, hs]

theorem overlapPair_id_of_next_none (x : Segment) (s : String)
    (hn : ParseTimestamp s = none) : overlapPair x s = x := by
  simp only [overlapPair_eq x s, hn]
  cases ParseTimestamp x.EndTime <;> cases ParseTimestamp x.StartTime <;> rfl

theorem overlapFix_id : ∀ (L : List Segment),
    (∀ x ∈ L, ParseTimestamp x.StartTime = none) → overlapFix L = L
  | [], _ => rfl
  | [_], _ => rfl
  | x :: y :: rest, H => by
    show overlapPair x y.StartTime :: overlapFix (y :: rest) = x :: y :: rest
    rw [overlapPair_id_of_next_none x y.StartTime (H y (by simp)),
      overlapFix_id (y :: rest) (fun z hz => H z (List.mem_cons_of_mem x hz))]

theorem correctTiming_id (gcc : String → Nat) (segments : List Segment)
    (targetCPS : Int)
    (H : ∀ x ∈ segments, ParseTimestamp x.StartTime = none) :
    correctTiming gcc segments targetCPS = segments := by
  by_cases h0 : segments.length = 0
  · simp [correctTiming, h0]
  · simp only [correctTiming, if_neg h0]
    rw [List.map_congr_left (fun seg hs =>
      step1_id_of_start_none gcc (if targetCPS ≤ 0 then 12 else targetCPS)
        seg (H seg hs))]
    rw [List.map_id']
    exact overlapFix_id segments H

set_option maxRecDepth 8000 in
/-- C9 counterexample: Postprocess is not idempotent, in two independent
ways.  For the supported language `ko` with language rules on, the line
`..<.` cleans to `...` in one pass (the angle-bracket strip runs after the
ellipsis replacement) and the second pass rewrites the freshly formed
`...` to `…`.  And even with the punctuation pass skipped entirely, the
binary64 timing pass is not a fixpoint: at `2000000:00:00,123` successive
passes step the end time to `,122` and then `,121`. -/
theorem postprocess_counterexample :
    (PostprocessWithOptions String.length
        (PostprocessWithOptions String.length
          [⟨1, "bad", "bad", ["..<."]⟩] "ko" 12 true) "ko" 12 true ≠
      PostprocessWithOptions String.length
        [⟨1, "bad", "bad", ["..<."]⟩] "ko" 12 true)
    ∧ (PostprocessWithOptions String.length
        (PostprocessWithOptions String.length
          [⟨1, "00:00:00,000", "2000000:00:00,123", []⟩] "ko" 12 false)
        "ko" 12 false ≠
      PostprocessWithOptions String.length
        [⟨1, "00:00:00,000", "2000000:00:00,123", []⟩] "ko" 12 false) :=
  ⟨by decide, by decide⟩

/-- C9 (amended): Postprocess is idempotent exactly when both of its
passes act trivially: the language-specific punctuation pass is skipped
(the flag is off, or the target language is none of the dispatched codes
`ko`, `ja`, `zh-Hant`, `zh`, `zh-Hans`) and every segment's timestamps are
unparseable, so the binary64 timing pass leaves the list unchanged; the
punctuation rules are not fixpoints, and neither is the timing pass on
parseable timestamps (float64 rounding can step the end time down by one
millisecond per pass). -/
theorem postprocess_idem (gcc : String → Nat) (segments : List Segment)
    (code : String) (cps : Int) (applyLangRules : Bool)
    (h : applyLangRules = false ∨
      (code ≠ "ko" ∧ code ≠ "ja" ∧ code ≠ "zh-Hant" ∧ code ≠ "zh" ∧
        code ≠ "zh-Hans"))
    (htimes : ∀ seg ∈ segments, ParseTimestamp seg.StartTime = none) :
    PostprocessWithOptions gcc
        (PostprocessWithOptions gcc segments code cps applyLangRules)
        code cps applyLangRules =
      PostprocessWithOptions gcc segments code cps applyLangRules := by
  have hdispatch : ∀ l : List Segment,
      (if applyLangRules then
        if code = "ko" then l.map cleanPunctuation
        else if code = "ja" then l.map cleanJapanesePunctuation
        else if code = "zh-Hant" then
          l.map cleanTraditionalChinesePunctuation
        else if code = "zh" ∨ code = "zh-Hans" then
          l.map cleanSimplifiedChinesePunctuation
        else l
      else l) = l := by
    intro l
    rcases h with h | ⟨h1, h2, h3, h4, h5⟩
    · rw [h]
      rfl
    · by_cases ha : applyLangRules = true
      · rw [if_pos ha, if_neg h1, if_neg h2, if_neg h3,
          if_neg (fun hc => hc.elim h4 h5)]
      · rw [if_neg ha]
  have hfix : PostprocessWithOptions gcc segments code cps applyLangRules =
      segments := by
    simp only [PostprocessWithOptions]
    rw [hdispatch]
    exact correctTiming_id gcc segments cps htimes
  rw [hfix]
  exact hfix

/-- Witness for C9's amended statement at a concrete input: a
non-dispatched language (`en`) with language rules on and unparseable
timestamps. -/
theorem postprocess_idem_witness :
    PostprocessWithOptions String.length
        (PostprocessWithOptions String.length
          [⟨1, "bad", "bad", ["hi"]⟩] "en" 12 true) "en" 12 true =
      PostprocessWithOptions String.length
        [⟨1, "bad", "bad", ["hi"]⟩] "en" 12 true :=
  postprocess_idem String.length [⟨1, "bad", "bad", ["hi"]⟩] "en" 12 true
    (Or.inr ⟨by decide, by decide, by decide, by decide, by decide⟩)
    (by decide)

end Focst
